import Mathlib

/-!
Verification development for the notebook core of `zim/notebook/notebook.py`.

The file shallowly embeds the data model and operations of the source file:
pure functions of the source become Lean functions, the notebook's mutable
state (page cache, heap of live page objects, backing store, emitted
signals) becomes an explicit `World` record threaded through the
operations, and Python exceptions become `Except` / flag results.

The classes `Path` (page names), `HRef` (parsed link references) and the
store/index collaborators live in repository files that are not part of
`src/`; those parts are modelled from the specification and are marked
`Modelled from the spec:` in their doc comments.  Everything else is a
direct translation of `notebook.py`.
-/

namespace ZimNotebook

/-! ## Colon-joined segment strings

Page names are colon-separated segment sequences (spec section 3,
"PathName").  `joinChars` renders a segment list to the character list of
its colon-joined name; `splitColonAux` is the inverse splitter used when
parsing link text. -/

def joinChars : List String → List Char
  | [] => []
  | [p] => p.data
  | p :: q :: rest => p.data ++ ':' :: joinChars (q :: rest)

def splitColonAux : List Char → List Char → List String
  | [], acc => [⟨acc.reverse⟩]
  | c :: rest, acc =>
    if c = ':' then ⟨acc.reverse⟩ :: splitColonAux rest []
    else splitColonAux rest (c :: acc)

/-- Join a segment list into a colon-separated string. -/
def joinStr (ps : List String) : String := ⟨joinChars ps⟩

/-! ## PathName -/

/-- Modelled from the spec: `Path` of `zim/notebook/page.py` (not under
`src/`): "sequence of non-empty segments, case preserved …; root is the
empty sequence" (spec section 3). -/
structure ZPath where
  parts : List String
deriving DecidableEq

/-- Colon-joined name of a path, the `Path.name` attribute. -/
def ZPath.name (p : ZPath) : String := joinStr p.parts

/-- Modelled from the spec: `basename()` is the last segment (spec 4.1).
The root path has no basename; we default to the empty string there. -/
def ZPath.basename (p : ZPath) : String := p.parts.getLastD ("")

/-- Modelled from the spec: `parent()` drops the last segment (spec 4.1). -/
def ZPath.parent (p : ZPath) : ZPath := ⟨p.parts.dropLast⟩

/-- Modelled from the spec: "a name is root iff it has zero segments". -/
def ZPath.isroot (p : ZPath) : Bool := p.parts.isEmpty

/-- Modelled from the spec: `p.ischild(q)` holds iff `q`'s segments are a
strict prefix of `p`'s segments (spec section 3). -/
def ZPath.ischild (p q : ZPath) : Bool :=
  decide (q.parts <+: p.parts ∧ q.parts ≠ p.parts)

/-- Modelled from the spec: `relativeTo(ancestor)` (called `relname` in the
source); drops the ancestor's segments and joins the remainder.  The
source raises on non-ancestry; callers below only use it on descendants. -/
def ZPath.relname (p anc : ZPath) : String :=
  joinStr (p.parts.drop anc.parts.length)

/-- Longest common prefix of two segment lists (exact-case comparison, as
in the source's `Path.commonparent`). -/
def commonParts : List String → List String → List String
  | a :: as, b :: bs => if a = b then a :: commonParts as bs else []
  | _, _ => []

/-- Modelled from the spec: `commonAncestor(other)` (spec 4.1). -/
def ZPath.commonparent (a b : ZPath) : ZPath := ⟨commonParts a.parts b.parts⟩

/-- Modelled from the spec: `child(suffix)`; appends segments. -/
def ZPath.child (p : ZPath) (suffix : List String) : ZPath := ⟨p.parts ++ suffix⟩

/-- Well-formedness of one page-name segment: non-empty, no colon (the
separator), and not starting with the child-link marker.  Spec 4.1:
"Construction from user input must strip/replace path separators not
valid in names"; spec 4.2 requires link markers to be distinguishable. -/
def segOk (s : String) : Prop :=
  s.data ≠ [] ∧ (':') ∉ s.data ∧ s.data.headD (' ') ≠ '+'

instance (s : String) : Decidable (segOk s) := by
  unfold segOk; infer_instance

/-- A well-formed path: every segment is well-formed. -/
def ZPath.wf (p : ZPath) : Prop := ∀ s ∈ p.parts, segOk s

instance (p : ZPath) : Decidable (p.wf) := by
  unfold ZPath.wf; infer_instance

/-- Character-list lowercase conversion (Python `str.lower()`); defined on
the character data so that it evaluates inside the kernel. -/
def lowerStr (s : String) : String := ⟨s.data.map Char.toLower⟩

/-! ## Link references and resolution -/

/-- Relation kind of a parsed link: `HREF_REL_ABSOLUTE`,
`HREF_REL_RELATIVE` (child marker) or `HREF_REL_FLOATING`
(spec section 3, "LinkReference"). -/
inductive HRefRel
  | absolute
  | relative
  | floating
deriving DecidableEq

/-- Modelled from the spec: a parsed textual link (`HRef` of
`zim/notebook/page.py`, not under `src/`): a relation kind plus a
sequence of path segments. -/
structure HRef where
  rel : HRefRel
  parts : List String
deriving DecidableEq

/-- Raw colon-joined text of the reference (the `names` attribute). -/
def HRef.names (h : HRef) : String := joinStr h.parts

/-- Modelled from the spec: `HRef.new_from_wiki_link` / `parse(text)`
(spec 4.2): "classify text beginning with a known absolute marker as
ABSOLUTE; text beginning with a relative marker … as RELATIVE; anything
else as FLOATING."  The absolute marker is a leading colon, the
child-relative marker a leading plus sign (the forms produced by
`relative_link`). -/
def HRef.new_from_wiki_link (text : String) : HRef :=
  match text.data with
  | c :: rest =>
    if c = ':' then ⟨.absolute, splitColonAux rest []⟩
    else if c = '+' then ⟨.relative, splitColonAux rest []⟩
    else ⟨.floating, splitColonAux (c :: rest) []⟩
  | [] => ⟨.floating, splitColonAux [] []⟩

/-- Modelled from the spec: `serialize(reference)` (spec 4.2): "ABSOLUTE
serializes with its marker; FLOATING without one" (`HRef.to_wiki_link`). -/
def HRef.to_wiki_link (h : HRef) : String :=
  match h.rel with
  | .absolute => (":") ++ h.names
  | .relative => ("+") ++ h.names
  | .floating => h.names

/-- Candidate targets tried by floating resolution, in order: the given
word attached to `source.parent`, then to each ancestor outward, ending
at root (spec 4.2, FLOATING). -/
def floatCandidates (source : ZPath) (ps : List String) : List ZPath :=
  ((List.range source.parts.length).reverse).map (fun k => ⟨source.parts.take k ++ ps⟩)

/-- Modelled from the spec: FLOATING resolution (spec 4.2): "try
`source.parent.child(word)`, then each ancestor outward to root, each
time checking (via the index collaborator) whether a page or placeholder
exists at that candidate name; first match wins; if none exists, the
candidate at root level is returned as a placeholder target". -/
def resolve_floating (ex : ZPath → Bool) (source : ZPath) (ps : List String) : ZPath :=
  ((floatCandidates source ps).find? ex).getD ⟨ps⟩

/-- Modelled from the spec: `resolve(reference, sourcePage)` (spec 4.2).
`ex` is the index collaborator's "page or placeholder exists" oracle. -/
def resolve_link (ex : ZPath → Bool) (source : ZPath) (href : HRef) : ZPath :=
  match href.rel with
  | .absolute => ⟨href.parts⟩
  | .relative => ⟨source.parts ++ href.parts⟩
  | .floating => resolve_floating ex source href.parts

/-! ## `relative_link` (notebook.py lines 350-377) -/

/-- Direct translation of `Notebook.relative_link(source, href)`:
returns the wiki-link text for a link from page `source` to page
`href`. -/
def relative_link (source href : ZPath) : String :=
  if href = source then href.basename
  else if href.ischild source then ("+") ++ href.relname source
  else
    let parent := source.commonparent href
    if parent.isroot then
      if (source.parts.map lowerStr).contains (lowerStr (href.parts.headD (""))) then
        (":") ++ href.name
      else href.name
    else if parent = href then href.basename
    else if parent = source.parent then href.relname parent
    else parent.basename ++ (":") ++ href.relname parent

/-! ## Splitter / joiner round-trip lemmas -/

theorem splitColonAux_no_colon (l : List Char) (acc : List Char) (h : (':') ∉ l) :
    splitColonAux l acc = [⟨acc.reverse ++ l⟩] := by
  induction l generalizing acc with
  | nil => simp [splitColonAux]
  | cons c rest ih =>
    have hc : ¬ c = ':' := fun he => h (he ▸ List.mem_cons_self c rest)
    have hr : (':') ∉ rest := fun hm => h (List.mem_cons_of_mem _ hm)
    simp only [splitColonAux, if_neg hc, ih _ hr]
    simp

theorem splitColonAux_append (l rest acc : List Char) (h : (':') ∉ l) :
    splitColonAux (l ++ ':' :: rest) acc = ⟨acc.reverse ++ l⟩ :: splitColonAux rest [] := by
  induction l generalizing acc with
  | nil => simp [splitColonAux]
  | cons c cs ih =>
    have hc : ¬ c = ':' := fun he => h (he ▸ List.mem_cons_self c cs)
    have hr : (':') ∉ cs := fun hm => h (List.mem_cons_of_mem _ hm)
    rw [List.cons_append]
    simp only [splitColonAux, if_neg hc]
    rw [ih (c :: acc) hr]
    simp

theorem splitColon_joinChars (ps : List String) (h0 : ps ≠ [])
    (hcf : ∀ p ∈ ps, (':') ∉ p.data) :
    splitColonAux (joinChars ps) [] = ps := by
  induction ps with
  | nil => cases h0 rfl
  | cons p rest ih =>
    cases rest with
    | nil =>
      have := splitColonAux_no_colon p.data [] (hcf p (by simp))
      simpa [joinChars] using this
    | cons q rs =>
      have hj : joinChars (p :: q :: rs) = p.data ++ ':' :: joinChars (q :: rs) := rfl
      rw [hj, splitColonAux_append _ _ _ (hcf p (by simp))]
      have := ih (by simp) (fun x hx => hcf x (List.mem_cons_of_mem _ hx))
      simp [this]

theorem joinChars_cons_head (p : String) (rest : List String) :
    ∃ tl, joinChars (p :: rest) = p.data ++ tl := by
  cases rest with
  | nil => exact ⟨[], by simp [joinChars]⟩
  | cons q rs => exact ⟨':' :: joinChars (q :: rs), rfl⟩

/-! ## List helper lemmas -/

theorem find?_eq_of_uniq {l : List ZPath} {t : ZPath} (ex : ZPath → Bool)
    (hmem : t ∈ l) (hext : ex t = true)
    (huniq : ∀ c ∈ l, ex c = true → c = t) :
    l.find? ex = some t := by
  induction l with
  | nil => cases hmem
  | cons c cs ih =>
    cases hexc : ex c with
    | true =>
      have hct : c = t := huniq c (List.mem_cons_self _ _) hexc
      subst hct
      simp [List.find?_cons, hexc]
    | false =>
      have hne : c ≠ t := fun he => by rw [he, hext] at hexc; cases hexc
      have hmem' : t ∈ cs := by
        rcases List.mem_cons.mp hmem with h | h
        · exact absurd h.symm hne
        · exact h
      rw [List.find?_cons, hexc]
      exact ih hmem' (fun d hd hexd => huniq d (List.mem_cons_of_mem _ hd) hexd)

theorem mem_floatCandidates {s : ZPath} {ps : List String} {k : Nat}
    (hk : k < s.parts.length) :
    (⟨s.parts.take k ++ ps⟩ : ZPath) ∈ floatCandidates s ps := by
  unfold floatCandidates
  exact List.mem_map_of_mem _ (List.mem_reverse.mpr (List.mem_range.mpr hk))

theorem take_eq_of_pre {l₁ l₂ : List String} (h : l₁ <+: l₂) {n : Nat}
    (hn : n ≤ l₁.length) : l₂.take n = l₁.take n := by
  obtain ⟨r, rfl⟩ := h
  exact List.take_append_of_le_length hn

theorem append_drop_of_pre {l₁ l₂ : List String} (h : l₁ <+: l₂) :
    l₁ ++ l₂.drop l₁.length = l₂ := by
  obtain ⟨r, rfl⟩ := h
  rw [List.drop_left]

theorem commonParts_pre_left (a b : List String) : commonParts a b <+: a := by
  induction a generalizing b with
  | nil => simp [commonParts]
  | cons x xs ih =>
    cases b with
    | nil => simp [commonParts]
    | cons y ys =>
      by_cases hxy : x = y
      · subst hxy
        simp only [commonParts, if_pos rfl]
        obtain ⟨r, hr⟩ := ih ys
        exact ⟨r, by simp [hr]⟩
      · simp [commonParts, hxy]

theorem commonParts_pre_right (a b : List String) : commonParts a b <+: b := by
  induction a generalizing b with
  | nil => simp [commonParts]
  | cons x xs ih =>
    cases b with
    | nil => simp [commonParts]
    | cons y ys =>
      by_cases hxy : x = y
      · subst hxy
        simp only [commonParts, if_pos rfl]
        obtain ⟨r, hr⟩ := ih ys
        exact ⟨r, by simp [hr]⟩
      · simp [commonParts, hxy]

theorem getLastD_eq_getLast {l : List String} (h : l ≠ []) (d : String) :
    l.getLastD d = l.getLast h := by
  rw [List.getLastD_eq_getLast?, List.getLast?_eq_getLast l h]
  rfl

/-! ## Parsing lemmas for the serialized forms -/

theorem parse_colon_marker (x : String) :
    HRef.new_from_wiki_link ((":") ++ x) = ⟨.absolute, splitColonAux x.data []⟩ := by
  have hd : ((":") ++ x).data = ':' :: x.data := String.data_append _ _
  simp [HRef.new_from_wiki_link, hd]

theorem parse_plus_marker (x : String) :
    HRef.new_from_wiki_link (("+") ++ x) = ⟨.relative, splitColonAux x.data []⟩ := by
  have hd : (("+") ++ x).data = '+' :: x.data := String.data_append _ _
  simp [HRef.new_from_wiki_link, hd]

theorem parse_floating_of_head (x : String) (c : Char) (cs : List Char)
    (hx : x.data = c :: cs) (h1 : c ≠ ':') (h2 : c ≠ '+') :
    HRef.new_from_wiki_link x = ⟨.floating, splitColonAux x.data []⟩ := by
  simp [HRef.new_from_wiki_link, hx, h1, h2]

/-! ## Floating resolution: sufficient condition to hit a given target -/

theorem resolve_floating_eq {ex : ZPath → Bool} {s t : ZPath} {ps : List String} {k : Nat}
    (hk : k < s.parts.length) (hcand : s.parts.take k ++ ps = t.parts)
    (hext : ex t = true)
    (huniq : ∀ c ∈ floatCandidates s ps, ex c = true → c = t) :
    resolve_floating ex s ps = t := by
  have hmem : t ∈ floatCandidates s ps := by
    have h := @mem_floatCandidates s ps k hk
    have he : (⟨s.parts.take k ++ ps⟩ : ZPath) = t := by
      cases t; simpa using hcand
    rwa [he] at h
  unfold resolve_floating
  rw [find?_eq_of_uniq ex hmem hext huniq]
  rfl

theorem segOk_head (p : String) (h : segOk p) :
    ∃ c cs, p.data = c :: cs ∧ c ≠ ':' ∧ c ≠ '+' := by
  obtain ⟨hne, hnc, hhd⟩ := h
  obtain ⟨c, cs, hdata⟩ : ∃ c cs, p.data = c :: cs := by
    cases hxd : p.data with
    | nil => exact absurd hxd hne
    | cons a as => exact ⟨a, as, rfl⟩
  refine ⟨c, cs, hdata, ?_, ?_⟩
  · intro he
    exact hnc (by rw [hdata, he]; exact List.mem_cons_self _ _)
  · intro he
    rw [hdata] at hhd
    simp [he] at hhd

theorem parse_joinStr_floating (ps : List String) (h0 : ps ≠ [])
    (hok : ∀ p ∈ ps, segOk p) :
    HRef.new_from_wiki_link (joinStr ps) = ⟨.floating, ps⟩ := by
  obtain ⟨p0, rest, rfl⟩ : ∃ p0 rest, ps = p0 :: rest := by
    cases ps with
    | nil => cases h0 rfl
    | cons a as => exact ⟨a, as, rfl⟩
  obtain ⟨c, cs, hdata, hc1, hc2⟩ := segOk_head p0 (hok p0 (List.mem_cons_self _ _))
  obtain ⟨tl, htl⟩ := joinChars_cons_head p0 rest
  have hdata2 : (joinStr (p0 :: rest)).data = c :: (cs ++ tl) := by
    show joinChars (p0 :: rest) = _
    rw [htl, hdata]
    simp
  rw [parse_floating_of_head _ c (cs ++ tl) hdata2 hc1 hc2]
  congr 1
  show splitColonAux (joinChars (p0 :: rest)) [] = _
  exact splitColon_joinChars _ (by simp) (fun p hp => ((hok p hp).2.1))

theorem parse_seg_colon_joinStr (bp : String) (D : List String)
    (hbp : segOk bp) (hD : D ≠ []) (hokD : ∀ p ∈ D, (':') ∉ p.data) :
    HRef.new_from_wiki_link (bp ++ (":") ++ joinStr D) = ⟨.floating, bp :: D⟩ := by
  obtain ⟨c, cs, hdata, hc1, hc2⟩ := segOk_head bp hbp
  have hd : (bp ++ (":") ++ joinStr D).data = bp.data ++ ':' :: joinChars D := by
    rw [String.data_append, String.data_append]
    show bp.data ++ [':'] ++ joinChars D = _
    simp
  have hd2 : (bp ++ (":") ++ joinStr D).data = c :: (cs ++ ':' :: joinChars D) := by
    rw [hd, hdata]
    simp
  rw [parse_floating_of_head _ c _ hd2 hc1 hc2]
  congr 1
  rw [hd, splitColonAux_append _ _ _ hbp.2.1]
  rw [splitColon_joinChars D hD hokD]
  simp

/-! ## C1: the round-trip law -/

/-- C1 counterexample: with source `a:b` and target `c`, where pages
`a`, `a:b`, `a:c` and `c` all exist in the index, `relative_link`
produces the bare floating word `c`, which resolution sends to `a:c`,
not back to `c` — although the target `c` exists and is not a
placeholder, so the claim's stated exception does not apply. -/
theorem relative_link_roundtrip_cex :
    (fun ex s t =>
      relative_link s t = ("c") ∧
      ex t = true ∧
      resolve_link ex s (HRef.new_from_wiki_link (relative_link s t)) = ⟨["a", "c"]⟩ ∧
      (⟨["a", "c"]⟩ : ZPath) ≠ t)
      (fun p => decide (p.parts = ["a"] ∨ p.parts = ["a", "b"] ∨
        p.parts = ["a", "c"] ∨ p.parts = ["c"]))
      (⟨["a", "b"]⟩ : ZPath) (⟨["c"]⟩ : ZPath) := by
  decide

/-- C1 (amended): the round trip `resolve(relative_link(s,t), s) = t`
holds for well-formed pages `s`, `t` whenever the target exists in the
index and no *other* candidate of the floating search for the produced
reference exists — i.e. except when the floating search would stop at an
earlier existing candidate (resolution ambiguity), which subsumes the
spec's placeholder exception. -/
theorem relative_link_roundtrip (ex : ZPath → Bool) (s t : ZPath)
    (hws : s.wf) (hwt : t.wf) (hs : s.parts ≠ []) (ht : t.parts ≠ [])
    (hext : ex t = true)
    (huniq : ∀ c ∈ floatCandidates s (HRef.new_from_wiki_link (relative_link s t)).parts,
      ex c = true → c = t) :
    resolve_link ex s (HRef.new_from_wiki_link (relative_link s t)) = t := by
  have hslen : 0 < s.parts.length := List.length_pos.mpr hs
  have htlen : 0 < t.parts.length := List.length_pos.mpr ht
  by_cases heq : t = s
  · -- self link: basename, floating, first candidate is `s` itself
    subst heq
    have hb : t.basename = t.parts.getLast ht := getLastD_eq_getLast ht _
    have hL : relative_link t t = t.basename := by
      simp [relative_link]
    have hparse : HRef.new_from_wiki_link (relative_link t t)
        = ⟨.floating, [t.parts.getLast ht]⟩ := by
      rw [hL, hb]
      exact parse_joinStr_floating [t.parts.getLast ht] (by simp)
        (by intro p hp; rw [List.mem_singleton] at hp; subst hp
            exact hwt _ (List.getLast_mem ht))
    rw [hparse] at huniq ⊢
    refine resolve_floating_eq (k := t.parts.length - 1)
      (Nat.sub_lt htlen Nat.one_pos) ?_ hext huniq
    rw [← List.dropLast_eq_take, List.dropLast_append_getLast]
  · by_cases hch : t.ischild s = true
    · -- child link: explicit "+" marker, resolves unconditionally
      have hpre : s.parts <+: t.parts ∧ s.parts ≠ t.parts := by
        simpa [ZPath.ischild] using hch
      have hlt : s.parts.length < t.parts.length := by
        rcases Nat.lt_or_ge s.parts.length t.parts.length with h | h
        · exact h
        · exact absurd (hpre.1.eq_of_length (Nat.le_antisymm hpre.1.length_le h)) hpre.2
      have hdrop_ne : t.parts.drop s.parts.length ≠ [] := by
        intro hnil
        have h0 := congrArg List.length hnil
        rw [List.length_drop] at h0
        simp at h0
        omega
      have hL : relative_link s t = ("+") ++ t.relname s := by
        simp only [relative_link, if_neg heq, if_pos hch]
      have hparse : HRef.new_from_wiki_link (relative_link s t)
          = ⟨.relative, t.parts.drop s.parts.length⟩ := by
        rw [hL, parse_plus_marker]
        congr 1
        show splitColonAux (joinChars (t.parts.drop s.parts.length)) [] = _
        exact splitColon_joinChars _ hdrop_ne
          (fun p hp => (hwt p (List.Sublist.mem hp (List.drop_sublist _ _))).2.1)
      rw [hparse]
      show (⟨s.parts ++ t.parts.drop s.parts.length⟩ : ZPath) = t
      have h2 := append_drop_of_pre hpre.1
      cases t
      simpa using h2
    · -- no self, no child: common-parent analysis
      by_cases hroot : commonParts s.parts t.parts = []
      · have hroot' : (s.commonparent t).isroot = true := by
          simp [ZPath.isroot, ZPath.commonparent, hroot]
        by_cases hcol :
            ((s.parts.map lowerStr).contains (lowerStr (t.parts.headD ("")))) = true
        · -- collision: explicit root anchor, absolute reference
          have hL : relative_link s t = (":") ++ t.name := by
            simp only [relative_link, if_neg heq, if_neg hch, hroot', if_true, hcol]
          have hparse : HRef.new_from_wiki_link (relative_link s t)
              = ⟨.absolute, t.parts⟩ := by
            rw [hL, parse_colon_marker]
            congr 1
            show splitColonAux (joinChars t.parts) [] = _
            exact splitColon_joinChars _ ht (fun p hp => (hwt p hp).2.1)
          rw [hparse]
          show (⟨t.parts⟩ : ZPath) = t
          rfl
        · -- no collision: full name as a floating reference
          have hcolf : ((s.parts.map lowerStr).contains (lowerStr (t.parts.headD ("")))) = false := by
            simpa using hcol
          have hL : relative_link s t = t.name := by
            simp only [relative_link, if_neg heq, if_neg hch, hroot', if_true, hcolf]
            simp
          have hparse : HRef.new_from_wiki_link (relative_link s t)
              = ⟨.floating, t.parts⟩ := by
            rw [hL]
            exact parse_joinStr_floating t.parts ht hwt
          rw [hparse] at huniq ⊢
          refine resolve_floating_eq (k := 0) hslen ?_ hext huniq
          simp
      · -- common parent not root
        have hroot' : ¬ ((s.commonparent t).isroot = true) := by
          simp [ZPath.isroot, ZPath.commonparent, hroot]
        have hPs : commonParts s.parts t.parts <+: s.parts := commonParts_pre_left _ _
        have hPt : commonParts s.parts t.parts <+: t.parts := commonParts_pre_right _ _
        by_cases hpt : commonParts s.parts t.parts = t.parts
        · -- link to an ancestor: basename, floating
          have hcp : s.commonparent t = t := by
            cases t
            simpa [ZPath.commonparent] using hpt
          have hL : relative_link s t = t.basename := by
            simp only [relative_link, if_neg heq, if_neg hch]
            rw [if_neg hroot', if_pos hcp]
          have hb : t.basename = t.parts.getLast ht := getLastD_eq_getLast ht _
          have hparse : HRef.new_from_wiki_link (relative_link s t)
              = ⟨.floating, [t.parts.getLast ht]⟩ := by
            rw [hL, hb]
            exact parse_joinStr_floating [t.parts.getLast ht] (by simp)
              (by intro p hp; rw [List.mem_singleton] at hp; subst hp
                  exact hwt _ (List.getLast_mem ht))
          have hts : t.parts <+: s.parts := hpt ▸ hPs
          rw [hparse] at huniq ⊢
          refine resolve_floating_eq (k := t.parts.length - 1) ?_ ?_ hext huniq
          · exact Nat.lt_of_lt_of_le (Nat.sub_lt htlen Nat.one_pos) hts.length_le
          · rw [take_eq_of_pre hts (Nat.sub_le _ _), ← List.dropLast_eq_take,
              List.dropLast_append_getLast]
        · -- strictly between root and t
          have hPlt : (commonParts s.parts t.parts).length < t.parts.length := by
            rcases Nat.lt_or_ge (commonParts s.parts t.parts).length t.parts.length with h | h
            · exact h
            · exact absurd (hPt.eq_of_length (Nat.le_antisymm hPt.length_le h)) hpt
          have hD_ne : t.parts.drop (commonParts s.parts t.parts).length ≠ [] := by
            intro hnil
            have h0 := congrArg List.length hnil
            rw [List.length_drop] at h0
            simp at h0
            omega
          have hD_cf : ∀ p ∈ t.parts.drop (commonParts s.parts t.parts).length, segOk p :=
            fun p hp => hwt p (List.Sublist.mem hp (List.drop_sublist _ _))
          have hcp_ne : ¬ (s.commonparent t = t) := by
            intro hcp
            apply hpt
            cases t
            simpa [ZPath.commonparent] using hcp
          by_cases hsp : commonParts s.parts t.parts = s.parts.dropLast
          · -- sibling of the source: relname from the common parent, floating
            have hcp : s.commonparent t = s.parent := by
              simp [ZPath.commonparent, ZPath.parent, hsp]
            have hL : relative_link s t = t.relname (s.commonparent t) := by
              simp only [relative_link, if_neg heq, if_neg hch]
              rw [if_neg hroot', if_neg hcp_ne, if_pos hcp]
            have hparse : HRef.new_from_wiki_link (relative_link s t)
                = ⟨.floating, t.parts.drop (commonParts s.parts t.parts).length⟩ := by
              rw [hL]
              exact parse_joinStr_floating _ hD_ne hD_cf
            rw [hparse] at huniq ⊢
            refine resolve_floating_eq (k := (commonParts s.parts t.parts).length)
              ?_ ?_ hext huniq
            · rw [hsp, List.length_dropLast]
              exact Nat.sub_lt hslen Nat.one_pos
            · rw [take_eq_of_pre hPs (Nat.le_refl _), List.take_length]
              exact append_drop_of_pre hPt
          · -- general case: parent.basename ++ ":" ++ relname, floating
            have hcp_ne2 : ¬ (s.commonparent t = s.parent) := by
              intro hcp
              apply hsp
              have := congrArg ZPath.parts hcp
              simpa [ZPath.commonparent, ZPath.parent] using this
            have hL : relative_link s t
                = (s.commonparent t).basename ++ (":") ++ t.relname (s.commonparent t) := by
              simp only [relative_link, if_neg heq, if_neg hch]
              rw [if_neg hroot', if_neg hcp_ne, if_neg hcp_ne2]
            have hb : (s.commonparent t).basename
                = (commonParts s.parts t.parts).getLast hroot := by
              show (commonParts s.parts t.parts).getLastD ("") = _
              exact getLastD_eq_getLast hroot _
            have hbp_ok : segOk ((commonParts s.parts t.parts).getLast hroot) :=
              hws _ (List.Sublist.mem (List.getLast_mem hroot) hPs.sublist)
            have hparse : HRef.new_from_wiki_link (relative_link s t)
                = ⟨.floating, (commonParts s.parts t.parts).getLast hroot ::
                    t.parts.drop (commonParts s.parts t.parts).length⟩ := by
              rw [hL, hb]
              exact parse_seg_colon_joinStr _ _ hbp_ok hD_ne (fun p hp => (hD_cf p hp).2.1)
            have hPlt_s : (commonParts s.parts t.parts).length < s.parts.length := by
              rcases Nat.lt_or_ge (commonParts s.parts t.parts).length s.parts.length with h | h
              · exact h
              · exfalso
                have hPeq : commonParts s.parts t.parts = s.parts :=
                  hPs.eq_of_length (Nat.le_antisymm hPs.length_le h)
                have hst : s.parts <+: t.parts := hPeq ▸ hPt
                have : t.ischild s = true := by
                  simp only [ZPath.ischild, decide_eq_true_eq]
                  exact ⟨hst, fun hee => heq (by cases t; cases s; simpa using hee.symm)⟩
                exact hch this
            rw [hparse] at huniq ⊢
            refine resolve_floating_eq (k := (commonParts s.parts t.parts).length - 1)
              ?_ ?_ hext huniq
            · exact Nat.lt_of_lt_of_le
                (Nat.sub_lt (List.length_pos.mpr hroot) Nat.one_pos)
                (Nat.le_of_lt hPlt_s)
            · rw [take_eq_of_pre hPs (Nat.sub_le _ _), ← List.dropLast_eq_take]
              rw [show ((commonParts s.parts t.parts).dropLast ++
                    (commonParts s.parts t.parts).getLast hroot ::
                    t.parts.drop (commonParts s.parts t.parts).length)
                  = ((commonParts s.parts t.parts).dropLast ++
                    [(commonParts s.parts t.parts).getLast hroot]) ++
                    t.parts.drop (commonParts s.parts t.parts).length by simp]
              rw [List.dropLast_append_getLast hroot]
              exact append_drop_of_pre hPt


/-- C1 witness: sibling pages `a:b` and `a:c` where only `a:c` exists in
the index; the computed reference resolves back to the target. -/
theorem relative_link_roundtrip_witness :
    (⟨["a", "b"]⟩ : ZPath).wf ∧ (⟨["a", "c"]⟩ : ZPath).wf ∧
    (⟨["a", "b"]⟩ : ZPath).parts ≠ [] ∧ (⟨["a", "c"]⟩ : ZPath).parts ≠ [] ∧
    (fun p : ZPath => decide (p.parts = ["a", "c"])) ⟨["a", "c"]⟩ = true ∧
    (∀ c ∈ floatCandidates ⟨["a", "b"]⟩
        (HRef.new_from_wiki_link (relative_link ⟨["a", "b"]⟩ ⟨["a", "c"]⟩)).parts,
      (fun p : ZPath => decide (p.parts = ["a", "c"])) c = true → c = ⟨["a", "c"]⟩) ∧
    resolve_link (fun p : ZPath => decide (p.parts = ["a", "c"])) ⟨["a", "b"]⟩
      (HRef.new_from_wiki_link (relative_link ⟨["a", "b"]⟩ ⟨["a", "c"]⟩)) = ⟨["a", "c"]⟩ :=
  ⟨by decide, by decide, by decide, by decide, by decide, by decide,
    relative_link_roundtrip _ _ _ (by decide) (by decide) (by decide) (by decide)
      (by decide) (by decide)⟩

/-! ## C6: the root-level branch of `relative_link` -/

/-- C6 counterexample: source `a`, target `c:d`: the common parent is
root and there is no case-insensitive collision, yet the result is the
full name `c:d`, not the plain basename `d` as the claim states. -/
theorem relative_link_root_cex :
    relative_link ⟨["a"]⟩ ⟨["c", "d"]⟩ = ("c:d") ∧
    ZPath.basename ⟨["c", "d"]⟩ = ("d") ∧
    (⟨["c", "d"]⟩ : ZPath) ≠ (⟨["a"]⟩ : ZPath) ∧
    ZPath.ischild ⟨["c", "d"]⟩ ⟨["a"]⟩ = false ∧
    (ZPath.commonparent ⟨["a"]⟩ ⟨["c", "d"]⟩).isroot = true ∧
    ((List.map lowerStr ["a"]).contains (lowerStr (["c", "d"].headD ("")))) = false ∧
    relative_link ⟨["a"]⟩ ⟨["c", "d"]⟩ ≠ ZPath.basename ⟨["c", "d"]⟩ := by
  decide

/-- C6 (amended): when the common parent of source and target is root,
`relative_link` yields the explicit root-anchored `":" ++ name` if the
target's first segment case-insensitively equals some segment of the
source, and otherwise the plain floating *full name* of the target (not
merely its basename). -/
theorem relative_link_root_branch (s t : ZPath)
    (hne : t ≠ s) (hch : t.ischild s = false)
    (hroot : (s.commonparent t).isroot = true) :
    relative_link s t =
      if (s.parts.map lowerStr).contains (lowerStr (t.parts.headD (""))) then
        (":") ++ t.name
      else t.name := by
  have hch2 : ¬ (t.ischild s = true) := by simp [hch]
  simp only [relative_link, if_neg hne, if_neg hch2, hroot, if_true]

/-- C6 witness: instantiates the amended branch description at source
`a`, target `c:d`. -/
theorem relative_link_root_branch_witness :
    (⟨["c", "d"]⟩ : ZPath) ≠ (⟨["a"]⟩ : ZPath) ∧
    ZPath.ischild ⟨["c", "d"]⟩ ⟨["a"]⟩ = false ∧
    (ZPath.commonparent ⟨["a"]⟩ ⟨["c", "d"]⟩).isroot = true ∧
    relative_link ⟨["a"]⟩ ⟨["c", "d"]⟩ =
      (if ((ZPath.parts ⟨["a"]⟩).map lowerStr).contains
          (lowerStr ((ZPath.parts ⟨["c", "d"]⟩).headD (""))) then
        (":") ++ ZPath.name ⟨["c", "d"]⟩
      else ZPath.name ⟨["c", "d"]⟩) :=
  ⟨by decide, by decide, by decide,
    relative_link_root_branch _ _ (by decide) (by decide) (by decide)⟩


/-! ## Parse trees, pages, events, errors -/

/-- One element of a page's parse tree: a link element (with its `href`
attribute and its display text) or any other content.  This is the
shallow embedding of the formats-layer document tree; `tree.replace(LINK,
fn)` of the source becomes a map over the `link` elements. -/
inductive Elem
  | link (href : String) (text : String)
  | other (text : String)
deriving DecidableEq

/-- Modelled from the spec: a live page object (`Page`/`StoreNodePage` of
`zim/notebook/page.py`, not under `src/`): identified by a PathName, with
an optional parsed document, `hascontent`, `haschildren`, `valid` and
`modified` flags (spec section 3, "Page"). -/
structure PageH where
  path : ZPath
  tree : Option (List Elem)
  hascontent : Bool
  haschildren : Bool
  valid : Bool
  modified : Bool
deriving DecidableEq

/-- Modelled from the spec: a link edge held by the index:
`(sourcePathName, targetPathName, originalReferenceText)` (spec 3). -/
structure LinkEdge where
  source : ZPath
  target : ZPath
  text : String
deriving DecidableEq

/-- Observable effects: the notebook's signals plus the collaborator
calls made to the store and the index (spec section 6). -/
inductive Ev
  | sigStorePage (p : ZPath)
  | sigStoredPage (p : ZPath)
  | sigMovePage (oldp newp : ZPath)
  | sigMovedPage (oldp newp : ZPath)
  | sigDeletePage (p : ZPath)
  | sigDeletedPage (p : ZPath)
  | storeMoved (oldp newp : ZPath)
  | storeDeleted (p : ZPath)
  | storeWrote (p : ZPath)
  | idxOnDelete (p : ZPath)
  | idxUpdate (p : ZPath)
  | idxOnStore (p : ZPath)
deriving DecidableEq

/-- Errors raised by the engine: `IndexNotUptodateError`,
`PageExistsError` from the store, and Python `assert` failures. -/
inductive MErr
  | IndexNotUptodate
  | PageExists
  | AssertionFailed
deriving DecidableEq

/-- The notebook's mutable state: the backing store's pages (name to
parse tree), the index's page/placeholder set and link table (external
collaborator data, read by the engine), the `probably_uptodate` flag of
the index, the heap of live page objects (id to object) together with the
`_page_cache` mapping page names to heap ids, the fresh-id counter, the
trace of emitted signals / collaborator calls, and the `link_type`
classifier of `zim.parsing` (a parameter: only page links matter). -/
structure World where
  store : List (ZPath × List Elem)
  indexPages : List ZPath
  indexLinks : List LinkEdge
  probablyUptodate : Bool
  heap : List (Nat × PageH)
  cache : List (String × Nat)
  nextId : Nat
  events : List Ev
  isPageLink : String → Bool

/-- Python `k.startswith(pre)`, on character data so that it evaluates
inside the kernel. -/
def strStartsWith (k pre : String) : Bool := pre.data.isPrefixOf k.data

/-! ### Association-list helpers (cache, heap, store) -/

def lookupStr : List (String × Nat) → String → Option Nat
  | [], _ => none
  | (k, v) :: rest, key => if k = key then some v else lookupStr rest key

def eraseStr : List (String × Nat) → String → List (String × Nat)
  | [], _ => []
  | (k, v) :: rest, key =>
    if k = key then eraseStr rest key else (k, v) :: eraseStr rest key

def insertStr (l : List (String × Nat)) (key : String) (v : Nat) :
    List (String × Nat) :=
  (key, v) :: eraseStr l key

def lookupNat : List (Nat × PageH) → Nat → Option PageH
  | [], _ => none
  | (k, v) :: rest, key => if k = key then some v else lookupNat rest key

def setNat : List (Nat × PageH) → Nat → PageH → List (Nat × PageH)
  | [], _, _ => []
  | (k, v) :: rest, key, pg =>
    if k = key then (k, pg) :: setNat rest key pg else (k, v) :: setNat rest key pg

def storeLookup : List (ZPath × List Elem) → ZPath → Option (List Elem)
  | [], _ => none
  | (k, v) :: rest, key => if k = key then some v else storeLookup rest key

def storeErase (st : List (ZPath × List Elem)) (p : ZPath) :
    List (ZPath × List Elem) :=
  st.filter (fun e => decide (e.1 ≠ p))

def storeSet (st : List (ZPath × List Elem)) (p : ZPath) (t : List Elem) :
    List (ZPath × List Elem) :=
  (p, t) :: storeErase st p

def storeHasChildren (st : List (ZPath × List Elem)) (p : ZPath) : Bool :=
  st.any (fun e => e.1.ischild p)

/-! ### Index collaborator views (modelled from the spec) -/

/-- Modelled from the spec: the index's `lookupByName` succeeding, i.e. a
page or placeholder entry exists for the name (spec section 6). -/
def pageExists (w : World) (p : ZPath) : Bool := decide (p ∈ w.indexPages)

/-- Modelled from the spec: whether the index reports children below a
name (used by `get_page` for placeholder parents). -/
def indexHasChildren (w : World) (p : ZPath) : Bool :=
  w.indexPages.any (fun q => q.ischild p)

/-- Existence oracle handed to link resolution, backed by the index. -/
def wex (w : World) : ZPath → Bool := fun p => pageExists w p

/-! ### get_page (notebook.py lines 387-431) -/

/-- The fresh `StoreNodePage` object built by `get_page`: its parse tree
and flags come from the store node, `haschildren` additionally consults
the index (a placeholder parent is known only to the index); the object
starts out valid and unmodified. -/
def newPageObj (w : World) (path : ZPath) : PageH :=
  ⟨path, storeLookup w.store path, (storeLookup w.store path).isSome,
   storeHasChildren w.store path ||
     (pageExists w path && indexHasChildren w path),
   true, false⟩

/-- Construction path of `get_page`: request the node from the store,
wrap it in a fresh `StoreNodePage` (valid, unmodified), register the
object in the cache under the page name, and hand out the fresh
handle. -/
def get_page_construct (w : World) (path : ZPath) : Nat × World :=
  (w.nextId, { w with heap := (w.nextId, newPageObj w path) :: w.heap,
                      cache := insertStr w.cache path.name w.nextId,
                      nextId := w.nextId + 1 })

/-- Translation of `Notebook.get_page`: if the cache holds a valid page
object for the name, return that same handle; otherwise construct a
fresh page object from the store and cache it. -/
def get_page (w : World) (path : ZPath) : Nat × World :=
  match lookupStr w.cache path.name with
  | some id =>
    match lookupNat w.heap id with
    | some pg => if pg.valid then (id, w) else get_page_construct w path
    | none => get_page_construct w path
  | none => get_page_construct w path

/-! ### flush_page_cache (notebook.py lines 455-473) -/

/-- One loop iteration of `flush_page_cache`: if the name is cached,
`assert not page.modified` (a `false` flag models the fatal assertion),
mark the object invalid, and delete the cache entry. -/
def flushOne (w : World) (name : String) : World × Bool :=
  match lookupStr w.cache name with
  | none => (w, true)
  | some id =>
    match lookupNat w.heap id with
    | none => (w, true)
    | some pg =>
      if pg.modified then (w, false)
      else ({ w with heap := setNat w.heap id { pg with valid := false },
                     cache := eraseStr w.cache name }, true)

/-- Sequential processing of the collected names; stops at the first
assertion failure (Python raises there). -/
def flushList : World → List String → World × Bool
  | w, [] => (w, true)
  | w, n :: rest =>
    let r := flushOne w n
    if r.2 then flushList r.1 rest else (r.1, false)

/-- Translation of `Notebook.flush_page_cache`: collect the page's own
name plus every cached name starting with `name + ':'`, then invalidate
and evict each. -/
def flush_page_cache (w : World) (path : ZPath) : World × Bool :=
  flushList w (path.name ::
    (w.cache.map Prod.fst).filter (fun k => strStartsWith k (path.name ++ (":"))))

/-- Well-formed world: the cache is a map (no duplicate names) holding
distinct live objects, the heap is a map, and every id is below the
fresh-id counter with cached ids present in the heap. -/
def WfWorld (w : World) : Prop :=
  (w.cache.map Prod.fst).Nodup ∧
  (w.cache.map Prod.snd).Nodup ∧
  (w.heap.map Prod.fst).Nodup ∧
  (∀ e ∈ w.heap, e.1 < w.nextId) ∧
  (∀ e ∈ w.cache, ∃ pg, lookupNat w.heap e.2 = some pg)


/-! ### Association-list lemmas -/

theorem lookupStr_eraseStr (l : List (String × Nat)) (key k : String) :
    lookupStr (eraseStr l key) k = if k = key then none else lookupStr l k := by
  induction l with
  | nil => simp [eraseStr, lookupStr]
  | cons e rest ih =>
    obtain ⟨a, b⟩ := e
    by_cases hak : a = key
    · simp only [eraseStr, if_pos hak, ih]
      by_cases hk : k = key
      · simp [hk]
      · have hka : ¬ a = k := fun h => hk (by rw [← h, hak])
        simp [lookupStr, hk, hka]
    · simp only [eraseStr, if_neg hak, lookupStr, ih]
      by_cases hk2 : a = k
      · have hkk : ¬ k = key := fun h => hak (by rw [hk2, h])
        simp [hk2, hkk]
      · simp [hk2]

theorem lookupStr_insertStr (l : List (String × Nat)) (key k : String) (v : Nat) :
    lookupStr (insertStr l key v) k = if k = key then some v else lookupStr l k := by
  simp only [insertStr, lookupStr]
  by_cases hk : key = k
  · simp [hk]
  · have hk2 : ¬ k = key := fun h => hk h.symm
    simp [hk, hk2, lookupStr_eraseStr]

theorem lookupNat_setNat (h : List (Nat × PageH)) (key j : Nat) (pg : PageH) :
    lookupNat (setNat h key pg) j =
      if j = key then (lookupNat h key).map (fun _ => pg) else lookupNat h j := by
  induction h with
  | nil => simp [setNat, lookupNat]
  | cons e rest ih =>
    obtain ⟨a, b⟩ := e
    by_cases hak : a = key
    · subst hak
      simp only [setNat, if_pos rfl, lookupNat, ih]
      by_cases haj : a = j
      · subst haj
        simp [lookupNat]
      · have : ¬ j = a := fun hh => haj hh.symm
        simp [lookupNat, haj, this]
    · simp only [setNat, if_neg hak, lookupNat, ih]
      by_cases haj : a = j
      · subst haj
        have : ¬ a = key := hak
        simp [lookupNat, this]
      · simp [lookupNat, haj]

theorem lookupNat_mem {h : List (Nat × PageH)} {i : Nat} {pg : PageH}
    (hl : lookupNat h i = some pg) : (i, pg) ∈ h := by
  induction h with
  | nil => simp [lookupNat] at hl
  | cons e rest ih =>
    obtain ⟨a, b⟩ := e
    by_cases hai : a = i
    · subst hai
      have hb : b = pg := by simpa [lookupNat] using hl
      rw [← hb]
      exact List.mem_cons_self _ _
    · simp only [lookupNat, if_neg hai] at hl
      exact List.mem_cons_of_mem _ (ih hl)

theorem lookupStr_mem {l : List (String × Nat)} {k : String} {i : Nat}
    (hl : lookupStr l k = some i) : (k, i) ∈ l := by
  induction l with
  | nil => simp [lookupStr] at hl
  | cons e rest ih =>
    obtain ⟨a, b⟩ := e
    by_cases hak : a = k
    · subst hak
      have hb : b = i := by simpa [lookupStr] using hl
      rw [← hb]
      exact List.mem_cons_self _ _
    · simp only [lookupStr, if_neg hak] at hl
      exact List.mem_cons_of_mem _ (ih hl)

theorem eraseStr_sublist (l : List (String × Nat)) (key : String) :
    (eraseStr l key).Sublist l := by
  induction l with
  | nil => simp [eraseStr]
  | cons e rest ih =>
    obtain ⟨a, b⟩ := e
    by_cases h : a = key
    · simp only [eraseStr, if_pos h]
      exact ih.cons _
    · simp only [eraseStr, if_neg h]
      exact ih.cons₂ _

theorem setNat_map_fst (h : List (Nat × PageH)) (key : Nat) (pg : PageH) :
    (setNat h key pg).map Prod.fst = h.map Prod.fst := by
  induction h with
  | nil => simp [setNat]
  | cons e rest ih =>
    obtain ⟨a, b⟩ := e
    by_cases hak : a = key <;> simp [setNat, hak, ih]

theorem lookupNat_setNat_isSome (h : List (Nat × PageH)) (key j : Nat) (pg : PageH)
    (hj : ∃ q, lookupNat h j = some q) :
    ∃ q, lookupNat (setNat h key pg) j = some q := by
  rw [lookupNat_setNat]
  obtain ⟨q, hq⟩ := hj
  by_cases hjk : j = key
  · subst hjk
    exact ⟨pg, by simp [hq]⟩
  · exact ⟨q, by simp [hjk, hq]⟩

/-! ### flushOne / flushList lemmas -/

/-- Cache-heap consistency: every cached id dereferences. -/
def CacheHeapOk (w : World) : Prop :=
  ∀ e ∈ w.cache, ∃ pg, lookupNat w.heap e.2 = some pg

theorem flushOne_cases (w : World) (n : String) :
    (flushOne w n = (w, true) ∧
      (lookupStr w.cache n = none ∨
       ∃ id, lookupStr w.cache n = some id ∧ lookupNat w.heap id = none)) ∨
    (∃ id pg, lookupStr w.cache n = some id ∧ lookupNat w.heap id = some pg ∧
      ((pg.modified = true ∧ flushOne w n = (w, false)) ∨
       (pg.modified = false ∧ flushOne w n =
         ({ w with heap := setNat w.heap id { pg with valid := false },
                   cache := eraseStr w.cache n }, true)))) := by
  cases hc : lookupStr w.cache n with
  | none =>
    refine Or.inl ⟨?_, Or.inl rfl⟩
    simp [flushOne, hc]
  | some id =>
    cases hh : lookupNat w.heap id with
    | none =>
      refine Or.inl ⟨?_, Or.inr ⟨id, rfl, hh⟩⟩
      simp [flushOne, hc, hh]
    | some pg =>
      cases hm : pg.modified with
      | true =>
        refine Or.inr ⟨id, pg, rfl, hh, Or.inl ⟨hm, ?_⟩⟩
        simp [flushOne, hc, hh, hm]
      | false =>
        refine Or.inr ⟨id, pg, rfl, hh, Or.inr ⟨hm, ?_⟩⟩
        simp [flushOne, hc, hh, hm]

theorem flushOne_frame (w : World) (n : String) :
    (flushOne w n).1.store = w.store ∧
    (flushOne w n).1.indexPages = w.indexPages ∧
    (flushOne w n).1.indexLinks = w.indexLinks ∧
    (flushOne w n).1.probablyUptodate = w.probablyUptodate ∧
    (flushOne w n).1.nextId = w.nextId ∧
    (flushOne w n).1.events = w.events ∧
    (flushOne w n).1.isPageLink = w.isPageLink := by
  rcases flushOne_cases w n with ⟨he, _⟩ | ⟨id, pg, _, _, ⟨_, he⟩ | ⟨_, he⟩⟩ <;>
    rw [he] <;> exact ⟨rfl, rfl, rfl, rfl, rfl, rfl, rfl⟩

theorem flushList_frame (ns : List String) (w : World) :
    (flushList w ns).1.store = w.store ∧
    (flushList w ns).1.indexPages = w.indexPages ∧
    (flushList w ns).1.indexLinks = w.indexLinks ∧
    (flushList w ns).1.probablyUptodate = w.probablyUptodate ∧
    (flushList w ns).1.nextId = w.nextId ∧
    (flushList w ns).1.events = w.events ∧
    (flushList w ns).1.isPageLink = w.isPageLink := by
  induction ns generalizing w with
  | nil => exact ⟨rfl, rfl, rfl, rfl, rfl, rfl, rfl⟩
  | cons n rest ih =>
    obtain ⟨h1, h2, h3, h4, h5, h6, h7⟩ := flushOne_frame w n
    by_cases hb : (flushOne w n).2 = true
    · simp only [flushList, hb, if_true]
      obtain ⟨g1, g2, g3, g4, g5, g6, g7⟩ := ih (flushOne w n).1
      exact ⟨g1.trans h1, g2.trans h2, g3.trans h3, g4.trans h4, g5.trans h5,
        g6.trans h6, g7.trans h7⟩
    · have hb2 : (flushOne w n).2 = false := by simpa using hb
      simp only [flushList, hb2, Bool.false_eq_true, if_false]
      exact ⟨h1, h2, h3, h4, h5, h6, h7⟩


theorem mem_eraseStr {l : List (String × Nat)} {key : String} {e : String × Nat} :
    e ∈ eraseStr l key ↔ e ∈ l ∧ e.1 ≠ key := by
  induction l with
  | nil => simp [eraseStr]
  | cons f rest ih =>
    obtain ⟨a, b⟩ := f
    by_cases hak : a = key
    · subst hak
      have hre : eraseStr ((a, b) :: rest) a = eraseStr rest a := by
        simp [eraseStr]
      rw [hre, ih]
      constructor
      · rintro ⟨hm, hne⟩
        exact ⟨List.mem_cons_of_mem _ hm, hne⟩
      · rintro ⟨hm, hne⟩
        rcases List.mem_cons.mp hm with rfl | hm2
        · exact absurd rfl hne
        · exact ⟨hm2, hne⟩
    · simp only [eraseStr, if_neg hak, List.mem_cons]
      rw [ih]
      constructor
      · rintro (rfl | ⟨hm, hne⟩)
        · exact ⟨Or.inl rfl, fun h => hak (by rw [← h])⟩
        · exact ⟨Or.inr hm, hne⟩
      · rintro ⟨rfl | hm, hne⟩
        · exact Or.inl rfl
        · exact Or.inr ⟨hm, hne⟩

theorem vals_nodup_inj {l : List (String × Nat)} (h : (l.map Prod.snd).Nodup)
    {a b : String × Nat} (ha : a ∈ l) (hb : b ∈ l) (hv : a.2 = b.2) : a = b :=
  List.inj_on_of_nodup_map h ha hb hv

/-- Shape of one flush step: either a no-op, or one cache entry is
removed and its page object is marked invalid. -/
theorem flushOne_shape (w : World) (n : String) :
    (flushOne w n).1 = w ∨
    (∃ id pg, lookupStr w.cache n = some id ∧ lookupNat w.heap id = some pg ∧
      pg.modified = false ∧
      (flushOne w n).1 = { w with heap := setNat w.heap id { pg with valid := false },
                                  cache := eraseStr w.cache n }) := by
  rcases flushOne_cases w n with ⟨he, _⟩ | ⟨id, pg, h1, h2, ⟨hm, he⟩ | ⟨hm, he⟩⟩
  · rw [he]
    exact Or.inl rfl
  · rw [he]
    exact Or.inl rfl
  · rw [he]
    exact Or.inr ⟨id, pg, h1, h2, hm, rfl⟩

theorem flushOne_cacheHeapOk (w : World) (n : String) (hok : CacheHeapOk w) :
    CacheHeapOk (flushOne w n).1 := by
  rcases flushOne_shape w n with he | ⟨id, pg, h1, h2, hm, he⟩ <;> rw [he]
  · exact hok
  · intro e hemem
    have hmem0 : e ∈ w.cache := List.Sublist.mem hemem (eraseStr_sublist _ _)
    exact lookupNat_setNat_isSome _ _ _ _ (hok e hmem0)

theorem flushList_cons_succ {w w' : World} {n : String} {rest : List String}
    (h : flushList w (n :: rest) = (w', true)) :
    (flushOne w n).2 = true ∧ flushList (flushOne w n).1 rest = (w', true) := by
  by_cases hb : (flushOne w n).2 = true
  · refine ⟨hb, ?_⟩
    simpa [flushList, hb] using h
  · have hb2 : (flushOne w n).2 = false := by simpa using hb
    exfalso
    simp [flushList, hb2] at h

theorem flushList_lookup_not_mem (ns : List String) (w : World) (k : String)
    (hk : k ∉ ns) :
    lookupStr (flushList w ns).1.cache k = lookupStr w.cache k := by
  induction ns generalizing w with
  | nil => rfl
  | cons n rest ih =>
    have hkn : k ≠ n := fun h => hk (h ▸ List.mem_cons_self _ _)
    have hkrest : k ∉ rest := fun h => hk (List.mem_cons_of_mem _ h)
    have hstep : lookupStr (flushOne w n).1.cache k = lookupStr w.cache k := by
      rcases flushOne_shape w n with he | ⟨id, pg, _, _, _, he⟩
      · rw [he]
      · rw [he]
        show lookupStr (eraseStr w.cache n) k = lookupStr w.cache k
        rw [lookupStr_eraseStr, if_neg hkn]
    by_cases hb : (flushOne w n).2 = true
    · simp only [flushList, hb, if_true]
      rw [ih _ hkrest, hstep]
    · have hb2 : (flushOne w n).2 = false := by simpa using hb
      simp only [flushList, hb2, Bool.false_eq_true, if_false]
      exact hstep

theorem flushList_lookup_none (ns : List String) (w : World) (k : String)
    (hk : lookupStr w.cache k = none) :
    lookupStr (flushList w ns).1.cache k = none := by
  induction ns generalizing w with
  | nil => exact hk
  | cons n rest ih =>
    have hstep : lookupStr (flushOne w n).1.cache k = none := by
      rcases flushOne_shape w n with he | ⟨id, pg, _, _, _, he⟩
      · rw [he]
        exact hk
      · rw [he]
        show lookupStr (eraseStr w.cache n) k = none
        rw [lookupStr_eraseStr]
        by_cases h : k = n <;> simp [h, hk]
    by_cases hb : (flushOne w n).2 = true
    · simp only [flushList, hb, if_true]
      exact ih _ hstep
    · have hb2 : (flushOne w n).2 = false := by simpa using hb
      simp only [flushList, hb2, Bool.false_eq_true, if_false]
      exact hstep

theorem flushList_lookup_mem (ns : List String) (w w' : World)
    (hok : CacheHeapOk w)
    (hsucc : flushList w ns = (w', true)) : ∀ k ∈ ns,
    lookupStr w'.cache k = none := by
  induction ns generalizing w with
  | nil => intro k hk; cases hk
  | cons n rest ih =>
    obtain ⟨hb, hrest⟩ := flushList_cons_succ hsucc
    intro k hk
    have hw' : (flushList (flushOne w n).1 rest).1 = w' := by rw [hrest]
    rcases List.mem_cons.mp hk with rfl | hkrest
    · -- the head name: its entry is gone after the first step
      rcases flushOne_cases w k with ⟨he, hnone | ⟨i2, hsome, hheapnone⟩⟩ |
        ⟨i2, pg, h1, h2, ⟨hm, he⟩ | ⟨hm, he⟩⟩
      · rw [← hw', he]
        exact flushList_lookup_none rest w k hnone
      · obtain ⟨pgx, hpgx⟩ := hok _ (lookupStr_mem hsome)
        rw [hheapnone] at hpgx
        cases hpgx
      · rw [he] at hb
        cases hb
      · rw [← hw', he]
        apply flushList_lookup_none
        show lookupStr (eraseStr w.cache k) k = none
        rw [lookupStr_eraseStr, if_pos rfl]
    · exact ih _ (flushOne_cacheHeapOk w n hok) hrest k hkrest

theorem flushList_heap_stable (ns : List String) (w : World) (id : Nat)
    (hid : ∀ e ∈ w.cache, e.2 ≠ id) :
    lookupNat (flushList w ns).1.heap id = lookupNat w.heap id ∧
    (∀ e ∈ (flushList w ns).1.cache, e.2 ≠ id) := by
  induction ns generalizing w with
  | nil => exact ⟨rfl, hid⟩
  | cons n rest ih =>
    have hstep : lookupNat (flushOne w n).1.heap id = lookupNat w.heap id ∧
        (∀ e ∈ (flushOne w n).1.cache, e.2 ≠ id) := by
      rcases flushOne_shape w n with he | ⟨i, pg, h1, h2, hm, he⟩ <;> rw [he]
      · exact ⟨rfl, hid⟩
      · constructor
        · show lookupNat (setNat w.heap i _) id = _
          rw [lookupNat_setNat]
          have hii : i ≠ id := hid (n, i) (lookupStr_mem h1)
          rw [if_neg (fun h => hii h.symm)]
        · intro e he2
          exact hid e (List.Sublist.mem he2 (eraseStr_sublist _ _))
    by_cases hb : (flushOne w n).2 = true
    · simp only [flushList, hb, if_true]
      obtain ⟨hs1, hs2⟩ := hstep
      obtain ⟨g1, g2⟩ := ih _ hs2
      exact ⟨g1.trans hs1, g2⟩
    · have hb2 : (flushOne w n).2 = false := by simpa using hb
      simp only [flushList, hb2, Bool.false_eq_true, if_false]
      exact hstep

theorem flushList_heap_entry (ns : List String) (w w' : World)
    (hok : CacheHeapOk w) (hvals : (w.cache.map Prod.snd).Nodup) (hnd : ns.Nodup)
    (hsucc : flushList w ns = (w', true)) :
    ∀ k ∈ ns, ∀ id, lookupStr w.cache k = some id →
      ∃ pg, lookupNat w.heap id = some pg ∧ pg.modified = false ∧
        lookupNat w'.heap id = some { pg with valid := false } := by
  induction ns generalizing w with
  | nil => intro k hk; cases hk
  | cons n rest ih =>
    obtain ⟨hb, hrest⟩ := flushList_cons_succ hsucc
    intro k hk id hlk
    have hw' : (flushList (flushOne w n).1 rest).1 = w' := by rw [hrest]
    rcases List.mem_cons.mp hk with rfl | hkrest
    · rcases flushOne_cases w k with ⟨he, hnone | ⟨i2, hsome, hheapnone⟩⟩ |
        ⟨i2, pg, h1, h2, ⟨hm, he⟩ | ⟨hm, he⟩⟩
      · rw [hnone] at hlk
        cases hlk
      · obtain ⟨pgx, hpgx⟩ := hok _ (lookupStr_mem hsome)
        rw [hheapnone] at hpgx
        cases hpgx
      · rw [he] at hb
        cases hb
      · have hii : i2 = id := by
          rw [h1] at hlk
          exact Option.some_inj.mp hlk
        subst hii
        refine ⟨pg, h2, hm, ?_⟩
        have hnotouch : ∀ e ∈ (flushOne w k).1.cache, e.2 ≠ i2 := by
          rw [he]
          intro e hemem hval
          have h3 := mem_eraseStr.mp hemem
          have h4 : e = (k, i2) :=
            vals_nodup_inj hvals h3.1 (lookupStr_mem h1) hval
          exact h3.2 (by rw [h4])
        have hst := (flushList_heap_stable rest _ i2 hnotouch).1
        rw [hw'] at hst
        rw [hst, he]
        show lookupNat (setNat w.heap i2 _) i2 = _
        rw [lookupNat_setNat, if_pos rfl, h2]
        rfl
    · rcases flushOne_cases w n with ⟨he, hnone | ⟨i2, hsome, hheapnone⟩⟩ |
        ⟨i2, pg, h1, h2, ⟨hm, he⟩ | ⟨hm, he⟩⟩
      · rw [he] at hrest
        exact ih w hok hvals (List.Nodup.of_cons hnd) hrest k hkrest id hlk
      · obtain ⟨pgx, hpgx⟩ := hok _ (lookupStr_mem hsome)
        rw [hheapnone] at hpgx
        cases hpgx
      · rw [he] at hb
        cases hb
      · have hkn : k ≠ n := fun hh =>
          (List.nodup_cons.mp hnd).1 (hh ▸ hkrest)
        have hii : id ≠ i2 := by
          intro hh
          subst hh
          have h4 : (k, id) = (n, id) :=
            vals_nodup_inj hvals (lookupStr_mem hlk) (lookupStr_mem h1) rfl
          exact hkn (by injection h4)
        have hlk1 : lookupStr (flushOne w n).1.cache k = some id := by
          rw [he]
          show lookupStr (eraseStr w.cache n) k = some id
          rw [lookupStr_eraseStr, if_neg hkn, hlk]
        have hok1 := flushOne_cacheHeapOk w n hok
        have hvals1 : ((flushOne w n).1.cache.map Prod.snd).Nodup := by
          rw [he]
          exact List.Nodup.sublist (List.Sublist.map _ (eraseStr_sublist _ _)) hvals
        obtain ⟨pg', hg1, hg2, hg3⟩ :=
          ih _ hok1 hvals1 (List.Nodup.of_cons hnd) hrest k hkrest id hlk1
        have hg1w : lookupNat w.heap id = some pg' := by
          rw [he] at hg1
          have : lookupNat (setNat w.heap i2 { pg with valid := false }) id
              = lookupNat w.heap id := by
            rw [lookupNat_setNat, if_neg hii]
          rw [← this]
          exact hg1
        exact ⟨pg', hg1w, hg2, hg3⟩

theorem flushList_fail (ns : List String) (w w' : World)
    (hvals : (w.cache.map Prod.snd).Nodup)
    (hfail : flushList w ns = (w', false)) :
    ∃ k ∈ ns, ∃ id pg, lookupStr w.cache k = some id ∧
      lookupNat w.heap id = some pg ∧ pg.modified = true := by
  induction ns generalizing w with
  | nil => simp [flushList] at hfail
  | cons n rest ih =>
    by_cases hb : (flushOne w n).2 = true
    · have hrest : flushList (flushOne w n).1 rest = (w', false) := by
        simpa [flushList, hb] using hfail
      rcases flushOne_shape w n with he | ⟨i2, pg2, h1, h2, hm2, he⟩
      · rw [he] at hrest
        obtain ⟨k, hk, id, pg, hl, hh, hm⟩ := ih w hvals hrest
        exact ⟨k, List.mem_cons_of_mem _ hk, id, pg, hl, hh, hm⟩
      · rw [he] at hrest
        have hvals1 : ((eraseStr w.cache n).map Prod.snd).Nodup :=
          List.Nodup.sublist (List.Sublist.map _ (eraseStr_sublist _ _)) hvals
        obtain ⟨k, hk, id, pg, hl, hh, hm⟩ := ih _ hvals1 hrest
        have hl0 : lookupStr (eraseStr w.cache n) k = some id := hl
        rw [lookupStr_eraseStr] at hl0
        by_cases hkn : k = n
        · rw [if_pos hkn] at hl0
          cases hl0
        · rw [if_neg hkn] at hl0
          have hh0 : lookupNat (setNat w.heap i2 { pg2 with valid := false }) id
              = some pg := hh
          by_cases hid : id = i2
          · subst hid
            rw [lookupNat_setNat, if_pos rfl, h2] at hh0
            have hpg : pg = { pg2 with valid := false } := by
              simpa using hh0.symm
            rw [hpg] at hm
            simp at hm
            exact absurd hm (by simp [hm2])
          · rw [lookupNat_setNat, if_neg hid] at hh0
            exact ⟨k, List.mem_cons_of_mem _ hk, id, pg, hl0, hh0, hm⟩
    · rcases flushOne_cases w n with ⟨he, _⟩ |
        ⟨i2, pg2, h1, h2, ⟨hm2, he⟩ | ⟨hm2, he⟩⟩
      · rw [he] at hb
        exact absurd rfl hb
      · exact ⟨n, List.mem_cons_self _ _, i2, pg2, h1, h2, hm2⟩
      · rw [he] at hb
        exact absurd rfl hb


/-! ### get_page postconditions and well-formedness -/

theorem mem_map_fst_eraseStr {l : List (String × Nat)} {key x : String}
    (h : x ∈ (eraseStr l key).map Prod.fst) : x ≠ key := by
  obtain ⟨e, hmem, hfst⟩ := List.mem_map.mp h
  have := (mem_eraseStr.mp hmem).2
  rw [← hfst]
  exact this

theorem lookupNat_cons (a : Nat) (b : PageH) (h : List (Nat × PageH)) (j : Nat) :
    lookupNat ((a, b) :: h) j = if a = j then some b else lookupNat h j := rfl

theorem get_page_spec (w : World) (p : ZPath) (hwf : WfWorld w) :
    WfWorld (get_page w p).2 ∧
    lookupStr (get_page w p).2.cache p.name = some (get_page w p).1 ∧
    (∃ pg, lookupNat (get_page w p).2.heap (get_page w p).1 = some pg ∧
      pg.valid = true) ∧
    (get_page w p).1 < (get_page w p).2.nextId ∧
    w.nextId ≤ (get_page w p).2.nextId := by
  obtain ⟨hkeys, hvals, hheapk, hbound, hch⟩ := hwf
  have hconstruct : WfWorld (get_page_construct w p).2 ∧
      lookupStr (get_page_construct w p).2.cache p.name
        = some (get_page_construct w p).1 ∧
      (∃ pg, lookupNat (get_page_construct w p).2.heap (get_page_construct w p).1
        = some pg ∧ pg.valid = true) ∧
      (get_page_construct w p).1 < (get_page_construct w p).2.nextId ∧
      w.nextId ≤ (get_page_construct w p).2.nextId := by
    refine ⟨⟨?_, ?_, ?_, ?_, ?_⟩, ?_, ?_, ?_, ?_⟩
    · show (List.map Prod.fst (insertStr w.cache p.name w.nextId)).Nodup
      simp only [insertStr, List.map_cons, List.nodup_cons]
      refine ⟨fun hmem => mem_map_fst_eraseStr hmem rfl, ?_⟩
      exact List.Nodup.sublist (List.Sublist.map _ (eraseStr_sublist _ _)) hkeys
    · show (List.map Prod.snd (insertStr w.cache p.name w.nextId)).Nodup
      simp only [insertStr, List.map_cons, List.nodup_cons]
      constructor
      · intro hmem
        obtain ⟨e, hmem2, hsnd⟩ := List.mem_map.mp hmem
        have he0 : e ∈ w.cache := (mem_eraseStr.mp hmem2).1
        obtain ⟨pg, hpg⟩ := hch e he0
        have := hbound _ (lookupNat_mem hpg)
        omega
      · exact List.Nodup.sublist (List.Sublist.map _ (eraseStr_sublist _ _)) hvals
    · show (List.map Prod.fst ((w.nextId, newPageObj w p) :: w.heap)).Nodup
      simp only [List.map_cons, List.nodup_cons]
      constructor
      · intro hmem
        obtain ⟨e, hmem2, hfst⟩ := List.mem_map.mp hmem
        have := hbound e hmem2
        omega
      · exact hheapk
    · intro e hmem
      rcases List.mem_cons.mp hmem with rfl | hmem2
      · show w.nextId < w.nextId + 1
        omega
      · have := hbound e hmem2
        show e.1 < w.nextId + 1
        omega
    · intro e hmem
      show ∃ pg, lookupNat ((w.nextId, newPageObj w p) :: w.heap) e.2 = some pg
      rw [lookupNat_cons]
      by_cases hne : w.nextId = e.2
      · exact ⟨newPageObj w p, by rw [if_pos hne]⟩
      · rw [if_neg hne]
        rcases List.mem_cons.mp hmem with rfl | hmem2
        · exact absurd rfl hne
        · exact hch e ((mem_eraseStr.mp hmem2).1)
    · show lookupStr (insertStr w.cache p.name w.nextId) p.name = some w.nextId
      rw [lookupStr_insertStr, if_pos rfl]
    · refine ⟨newPageObj w p, ?_, rfl⟩
      show lookupNat ((w.nextId, newPageObj w p) :: w.heap) w.nextId = _
      rw [lookupNat_cons, if_pos rfl]
    · show w.nextId < w.nextId + 1
      omega
    · show w.nextId ≤ w.nextId + 1
      omega
  cases hc : lookupStr w.cache p.name with
  | none =>
    have hgc : get_page w p = get_page_construct w p := by
      simp [get_page, hc]
    rw [hgc]
    exact hconstruct
  | some id =>
    cases hh : lookupNat w.heap id with
    | none =>
      have hgc : get_page w p = get_page_construct w p := by
        simp [get_page, hc, hh]
      rw [hgc]
      exact hconstruct
    | some pg =>
      cases hv : pg.valid with
      | false =>
        have hgc : get_page w p = get_page_construct w p := by
          simp [get_page, hc, hh, hv]
        rw [hgc]
        exact hconstruct
      | true =>
        have hgc : get_page w p = (id, w) := by
          simp [get_page, hc, hh, hv]
        rw [hgc]
        refine ⟨⟨hkeys, hvals, hheapk, hbound, hch⟩, hc, ⟨pg, hh, hv⟩, ?_, Nat.le_refl _⟩
        exact hbound _ (lookupNat_mem hh)


theorem strStartsWith_append_colon (x : String) :
    strStartsWith x (x ++ (":")) = false := by
  unfold strStartsWith
  cases h : (x ++ (":")).data.isPrefixOf x.data
  · rfl
  · exfalso
    have hp := List.isPrefixOf_iff_prefix.mp h
    have hlen := hp.length_le
    rw [String.data_append] at hlen
    have hcd : (":" : String).data = [':'] := rfl
    rw [hcd, List.length_append] at hlen
    simp at hlen

theorem lookupStr_eraseStr_some {l : List (String × Nat)} {n k : String} {i : Nat}
    (h : lookupStr (eraseStr l n) k = some i) : lookupStr l k = some i := by
  rw [lookupStr_eraseStr] at h
  by_cases hkn : k = n
  · rw [if_pos hkn] at h
    cases h
  · rwa [if_neg hkn] at h

theorem flushList_heap_untouched (ns : List String) (w : World) (id : Nat)
    (h : ∀ k ∈ ns, ∀ i, lookupStr w.cache k = some i → i ≠ id) :
    lookupNat (flushList w ns).1.heap id = lookupNat w.heap id := by
  induction ns generalizing w with
  | nil => rfl
  | cons n rest ih =>
    have hstep : lookupNat (flushOne w n).1.heap id = lookupNat w.heap id ∧
        (∀ k ∈ rest, ∀ i, lookupStr (flushOne w n).1.cache k = some i → i ≠ id) := by
      rcases flushOne_shape w n with he | ⟨i2, pg, h1, h2, hm, he⟩
      · rw [he]
        exact ⟨rfl, fun k hk i hl => h k (List.mem_cons_of_mem _ hk) i hl⟩
      · rw [he]
        constructor
        · show lookupNat (setNat w.heap i2 _) id = _
          rw [lookupNat_setNat]
          have hii : i2 ≠ id := h n (List.mem_cons_self _ _) i2 h1
          rw [if_neg (fun hh => hii hh.symm)]
        · intro k hk i hl
          exact h k (List.mem_cons_of_mem _ hk) i (lookupStr_eraseStr_some hl)
    by_cases hb : (flushOne w n).2 = true
    · simp only [flushList, hb, if_true]
      rw [ih _ hstep.2, hstep.1]
    · have hb2 : (flushOne w n).2 = false := by simpa using hb
      simp only [flushList, hb2, Bool.false_eq_true, if_false]
      exact hstep.1

/-! ## C2: page-identity cache contract -/

/-- Identity and invalidation behaviour required of the page cache for a
handle `id1` freshly returned in world `w1`. -/
def CacheIdentitySpec (p : ZPath) (id1 : Nat) (w1 : World) : Prop :=
  get_page w1 p = (id1, w1) ∧
  ∀ w2, flush_page_cache w1 p = (w2, true) →
    (get_page w2 p).1 ≠ id1 ∧
    ∃ pg, lookupNat w2.heap id1 = some pg ∧ pg.valid = false

/-- C2: for a well-formed world, a handle returned by `get_page` is
returned identically (same id, no state change) by a repeated
`get_page`; after a successful `flush_page_cache` of the path, a new
`get_page` returns a different handle and the old handle's page object
reports `valid = false`. -/
theorem get_page_identity (w : World) (p : ZPath) (hwf : WfWorld w)
    (id1 : Nat) (w1 : World) (h1 : get_page w p = (id1, w1)) :
    CacheIdentitySpec p id1 w1 := by
  obtain ⟨hwf1, hcache, hpgv, hlt, hmono⟩ := get_page_spec w p hwf
  have e1 : (get_page w p).1 = id1 := by rw [h1]
  have e2 : (get_page w p).2 = w1 := by rw [h1]
  rw [e2] at hwf1
  rw [e1, e2] at hcache
  rw [e1, e2] at hpgv
  rw [e1, e2] at hlt
  obtain ⟨pg, hpg, hv⟩ := hpgv
  constructor
  · simp [get_page, hcache, hpg, hv]
  · intro w2 hflush
    obtain ⟨hkeys1, hvals1, hheapk1, hbound1, hch1⟩ := hwf1
    have hflush' : flushList w1 (p.name :: (w1.cache.map Prod.fst).filter
        (fun k => strStartsWith k (p.name ++ (":")))) = (w2, true) := hflush
    have hnd : (p.name :: (w1.cache.map Prod.fst).filter
        (fun k => strStartsWith k (p.name ++ (":")))).Nodup := by
      rw [List.nodup_cons]
      constructor
      · intro hmem
        have hpred := (List.mem_filter.mp hmem).2
        rw [strStartsWith_append_colon] at hpred
        cases hpred
      · exact List.Nodup.filter _ hkeys1
    obtain ⟨pgx, hx1, hx2, hx3⟩ := flushList_heap_entry _ w1 w2 hch1 hvals1 hnd
      hflush' p.name (List.mem_cons_self _ _) id1 hcache
    have hnone : lookupStr w2.cache p.name = none :=
      flushList_lookup_mem _ w1 w2 hch1 hflush' p.name (List.mem_cons_self _ _)
    refine ⟨?_, ⟨{ pgx with valid := false }, hx3, rfl⟩⟩
    have hgc : get_page w2 p = get_page_construct w2 p := by
      simp [get_page, hnone]
    rw [hgc]
    show w2.nextId ≠ id1
    have hfr := (flushList_frame (p.name :: (w1.cache.map Prod.fst).filter
        (fun k => strStartsWith k (p.name ++ (":")))) w1).2.2.2.2.1
    have hw2 : (flushList w1 (p.name :: (w1.cache.map Prod.fst).filter
        (fun k => strStartsWith k (p.name ++ (":"))))).1 = w2 := by rw [hflush']
    rw [hw2] at hfr
    omega

/-- Concrete demonstration world: one stored page `a`, empty cache. -/
def demoWorld : World :=
  { store := [(⟨["a"]⟩, [Elem.other ("hello")])], indexPages := [],
    indexLinks := [], probablyUptodate := true, heap := [], cache := [],
    nextId := 0, events := [], isPageLink := fun _ => true }

theorem demoWorld_wf : WfWorld demoWorld :=
  ⟨List.nodup_nil, List.nodup_nil, List.nodup_nil,
    fun e he => absurd he (List.not_mem_nil e),
    fun e he => absurd he (List.not_mem_nil e)⟩

/-- C2 witness: instantiates the cache contract on `demoWorld` and the
page `a`; the flush of the fresh handle indeed succeeds. -/
theorem get_page_identity_witness :
    WfWorld demoWorld ∧
    get_page demoWorld ⟨["a"]⟩ =
      ((get_page demoWorld ⟨["a"]⟩).1, (get_page demoWorld ⟨["a"]⟩).2) ∧
    (flush_page_cache (get_page demoWorld ⟨["a"]⟩).2 ⟨["a"]⟩).2 = true ∧
    CacheIdentitySpec ⟨["a"]⟩ (get_page demoWorld ⟨["a"]⟩).1
      (get_page demoWorld ⟨["a"]⟩).2 :=
  ⟨demoWorld_wf, rfl, rfl,
    get_page_identity demoWorld ⟨["a"]⟩ demoWorld_wf _ _ rfl⟩


/-! ## C7: exact behaviour of flush_page_cache -/

/-- The names collected by `flush_page_cache(path)`: the path's own name
plus every cached name starting with `name + ':'`. -/
def flushNames (w : World) (p : ZPath) : List String :=
  p.name :: (w.cache.map Prod.fst).filter (fun k => strStartsWith k (p.name ++ (":")))

theorem flush_page_cache_eq (w : World) (p : ZPath) :
    flush_page_cache w p = flushList w (flushNames w p) := rfl

/-- A cached name matched by `flush_page_cache(path)`: the path's own
name, or any name starting with the name followed by the separator. -/
def flushMatches (pname k : String) : Prop :=
  k = pname ∨ strStartsWith k (pname ++ (":")) = true

instance (pname k : String) : Decidable (flushMatches pname k) := by
  unfold flushMatches
  infer_instance

/-- The flush contract: on success exactly the matched entries are
evicted (unmatched cache entries and heap objects not held by a matched
entry are untouched), every evicted entry's page object was unmodified
and is marked invalid while remaining dereferenceable; the flush fails
(fatal assertion) exactly when some matched cached page is modified. -/
def FlushSpec (w : World) (p : ZPath) : Prop :=
  (∀ w', flush_page_cache w p = (w', true) →
    (∀ k, flushMatches p.name k → lookupStr w'.cache k = none) ∧
    (∀ k, ¬ flushMatches p.name k → lookupStr w'.cache k = lookupStr w.cache k) ∧
    (∀ k id, flushMatches p.name k → lookupStr w.cache k = some id →
      ∃ pg, lookupNat w.heap id = some pg ∧ pg.modified = false ∧
        lookupNat w'.heap id = some { pg with valid := false }) ∧
    (∀ id, (∀ k i, flushMatches p.name k → lookupStr w.cache k = some i → i ≠ id) →
      lookupNat w'.heap id = lookupNat w.heap id)) ∧
  (∀ w', flush_page_cache w p = (w', false) →
    ∃ k id pg, flushMatches p.name k ∧ lookupStr w.cache k = some id ∧
      lookupNat w.heap id = some pg ∧ pg.modified = true) ∧
  ((∃ k id pg, flushMatches p.name k ∧ lookupStr w.cache k = some id ∧
      lookupNat w.heap id = some pg ∧ pg.modified = true) →
    (flush_page_cache w p).2 = false)

/-- C7: a well-formed world satisfies the flush contract. -/
theorem flush_page_cache_exact (w : World) (p : ZPath) (hwf : WfWorld w) :
    FlushSpec w p := by
  obtain ⟨hkeys, hvals, hheapk, hbound, hch⟩ := hwf
  have hnames_mem : ∀ k id, flushMatches p.name k → lookupStr w.cache k = some id →
      k ∈ flushNames w p := by
    intro k id hm hl
    rcases hm with rfl | hpre
    · exact List.mem_cons_self _ _
    · refine List.mem_cons_of_mem _ (List.mem_filter.mpr ⟨?_, hpre⟩)
      exact List.mem_map_of_mem _ (lookupStr_mem hl)
  have hnames_matched : ∀ k ∈ flushNames w p, flushMatches p.name k := by
    intro k hk
    rcases List.mem_cons.mp hk with rfl | hk2
    · exact Or.inl rfl
    · exact Or.inr (List.mem_filter.mp hk2).2
  have hnd : (flushNames w p).Nodup := by
    rw [flushNames, List.nodup_cons]
    constructor
    · intro hmem
      have hpred := (List.mem_filter.mp hmem).2
      rw [strStartsWith_append_colon] at hpred
      cases hpred
    · exact List.Nodup.filter _ hkeys
  refine ⟨?_, ?_, ?_⟩
  · intro w' hsucc
    have hsucc' : flushList w (flushNames w p) = (w', true) := hsucc
    have hw' : (flushList w (flushNames w p)).1 = w' := by rw [hsucc']
    refine ⟨?_, ?_, ?_, ?_⟩
    · intro k hm
      cases hl : lookupStr w.cache k with
      | none =>
        have := flushList_lookup_none (flushNames w p) w k hl
        rwa [hw'] at this
      | some id =>
        exact flushList_lookup_mem _ w w' hch hsucc' k (hnames_mem k id hm hl)
    · intro k hm
      have hnotin : k ∉ flushNames w p := fun hk => hm (hnames_matched k hk)
      have := flushList_lookup_not_mem (flushNames w p) w k hnotin
      rwa [hw'] at this
    · intro k id hm hl
      exact flushList_heap_entry _ w w' hch hvals hnd hsucc' k
        (hnames_mem k id hm hl) id hl
    · intro id hid
      have := flushList_heap_untouched (flushNames w p) w id
        (fun k hk i hl => hid k i (hnames_matched k hk) hl)
      rwa [hw'] at this
  · intro w' hfail
    obtain ⟨k, hk, id, pg, h1, h2, h3⟩ :=
      flushList_fail (flushNames w p) w w' hvals hfail
    exact ⟨k, id, pg, hnames_matched k hk, h1, h2, h3⟩
  · rintro ⟨k, id, pg, hm, h1, h2, h3⟩
    cases hb : (flush_page_cache w p).2 with
    | false => rfl
    | true =>
      exfalso
      have hsucc' : flushList w (flushNames w p) =
          ((flushList w (flushNames w p)).1, true) := by
        rw [← hb]
        rfl
      obtain ⟨pg', hg1, hg2, _⟩ := flushList_heap_entry _ w _ hch hvals hnd hsucc'
        k (hnames_mem k id hm h1) id h1
      rw [h2] at hg1
      injection hg1 with hpg
      rw [hpg] at h3
      rw [h3] at hg2
      cases hg2

/-- C7 witness: the flush contract instantiated on `demoWorld`. -/
theorem flush_page_cache_exact_witness :
    WfWorld demoWorld ∧ FlushSpec demoWorld ⟨["a"]⟩ :=
  ⟨demoWorld_wf, flush_page_cache_exact demoWorld ⟨["a"]⟩ demoWorld_wf⟩


/-! ## Store and index collaborator operations -/

/-- Re-root every stored page at or below `oldp` to sit below `newp`. -/
def storeRemap (st : List (ZPath × List Elem)) (oldp newp : ZPath) :
    List (ZPath × List Elem) :=
  st.map (fun e =>
    if e.1 = oldp then (newp, e.2)
    else if e.1.ischild oldp = true then
      (⟨newp.parts ++ e.1.parts.drop oldp.parts.length⟩, e.2)
    else e)

/-- Modelled from the spec: `store.move_page` (spec 6 and 4.5 step 3):
fails with PageExists when the destination already has content or
children and is not in an ancestor/descendant relationship with the
source; otherwise moves the subtree.  The source page need not exist
(placeholder moves). -/
def storeMove (st : List (ZPath × List Elem)) (oldp newp : ZPath) :
    Except Unit (List (ZPath × List Elem)) :=
  if newp = oldp ∨ newp.ischild oldp = true ∨ oldp.ischild newp = true then
    .ok (storeRemap st oldp newp)
  else if st.any (fun e => decide (e.1 = newp) || e.1.ischild newp) then
    .error ()
  else .ok (storeRemap st oldp newp)

/-- Modelled from the spec: `store.delete_page` / `store.trash_page`
(spec 6): removes the page and its subtree, reporting whether anything
existed. -/
def storeDelete (st : List (ZPath × List Elem)) (p : ZPath) :
    List (ZPath × List Elem) × Bool :=
  (st.filter (fun e => !(decide (e.1 = p) || e.1.ischild p)),
   st.any (fun e => decide (e.1 = p) || e.1.ischild p))

/-- Write-back of a page object: some tree stores content, an empty page
erases the store node. -/
def storeWritePage (st : List (ZPath × List Elem)) (p : ZPath)
    (tr : Option (List Elem)) : List (ZPath × List Elem) :=
  match tr with
  | some t => storeSet st p t
  | none => storeErase st p

/-- Append one observable event. -/
def emit (w : World) (e : Ev) : World := { w with events := w.events ++ [e] }

/-- Modelled from the spec: the index mutators are external collaborator
calls (spec section 1 declares the index out of scope); the engine's
calls are recorded in the event trace, the index's query data
(`indexPages` / `indexLinks`) is injected state. -/
def index_on_delete_page (w : World) (p : ZPath) : World := emit w (.idxOnDelete p)

/-- Modelled from the spec: `index.update(path)`, recorded as an event. -/
def index_update (w : World) (p : ZPath) : World := emit w (.idxUpdate p)

/-- Modelled from the spec: `links.list_links_section(p)` — link edges
whose source page lies in the section rooted at `p` (spec 6). -/
def list_links_section (w : World) (p : ZPath) : List LinkEdge :=
  w.indexLinks.filter (fun l => decide (l.source = p) || l.source.ischild p)

/-- Modelled from the spec: `links.list_links_section(p, LINK_DIR_BACKWARD)`
— link edges whose target lies in the section rooted at `p`. -/
def list_links_section_backward (w : World) (p : ZPath) : List LinkEdge :=
  w.indexLinks.filter (fun l => decide (l.target = p) || l.target.ischild p)

/-- Modelled from the spec: `links.list_floating_links(word)` — edges
whose reference text is floating and anchored at `word` (spec 6). -/
def list_floating_links (w : World) (word : String) : List LinkEdge :=
  w.indexLinks.filter (fun l =>
    decide ((HRef.new_from_wiki_link l.text).rel = HRefRel.floating) &&
      decide ((HRef.new_from_wiki_link l.text).parts.headD ("") = word))

/-! ## store_page and page mutation (notebook.py lines 479-490) -/

/-- `page.set_parsetree(tree)`: updates the page object's document and
marks it dirty. -/
def set_parsetree (w : World) (id : Nat) (t : List Elem) : World :=
  match lookupNat w.heap id with
  | none => w
  | some pg =>
    { w with heap := setNat w.heap id { pg with tree := some t, modified := true } }

/-- Translation of `Notebook.store_page`: assert the handle is valid,
emit `store-page`, write the page through the store (`page._store()`,
which clears the dirty flag), notify the index, emit `stored-page`. -/
def store_page (w : World) (id : Nat) : Except (MErr × World) World :=
  match lookupNat w.heap id with
  | none => .error (.AssertionFailed, w)
  | some pg =>
    if pg.valid = false then .error (.AssertionFailed, w)
    else
      let w1 := emit w (.sigStorePage pg.path)
      let w2 : World := { w1 with
        store := storeWritePage w1.store pg.path pg.tree,
        heap := setNat w1.heap id { pg with modified := false },
        events := w1.events ++ [Ev.storeWrote pg.path] }
      let w3 := emit w2 (.idxOnStore pg.path)
      .ok (emit w3 (.sigStoredPage pg.path))

/-! ## Link repair after a move (notebook.py lines 569-696) -/

/-- Modelled from the spec: `PagesView.create_link` implements the
link-relative computation of spec 4.3, the same algorithm as the
source's `relative_link`, serialized to wiki-link text. -/
def create_link_text (source target : ZPath) : String :=
  relative_link source target

/-- Translation of `Notebook._update_link_tag` (lines 686-696): absolute
links stay absolute (':' marker), anything else is re-serialized through
`create_link`; the display text follows the href when they coincided. -/
def update_link_tag (elt : Elem) (source target : ZPath) (oldhref : HRef) : Elem :=
  let text := if oldhref.rel = HRefRel.absolute then (":") ++ target.name
    else create_link_text source target
  match elt with
  | .link href dtext => .link text (if dtext = href then text else dtext)
  | .other t => .other t

/-- Translation of the `replacefunc` of `_update_moved_page`
(lines 592-607): non-page links and non-floating references are skipped
(`VisitorSkip`); a floating reference is rewritten only when it resolves
differently from the old location. -/
def update_moved_page_replace (w : World) (pagePath oldpath : ZPath)
    (elt : Elem) : Elem :=
  match elt with
  | .other t => .other t
  | .link href dtext =>
    if w.isPageLink href = false then .link href dtext
    else
      let h := HRef.new_from_wiki_link href
      if h.rel = HRefRel.floating then
        let newtarget := resolve_link (wex w) pagePath h
        let oldtarget := resolve_link (wex w) oldpath h
        if newtarget ≠ oldtarget then
          update_link_tag (.link href dtext) pagePath oldtarget h
        else .link href dtext
      else .link href dtext

/-- Translation of `Notebook._update_moved_page` (lines 585-611): load
the page, rewrite its tree, store it back. -/
def update_moved_page (w : World) (path oldpath : ZPath) :
    Except (MErr × World) World :=
  let r := get_page w path
  match (lookupNat r.2.heap r.1).bind (fun pg => pg.tree) with
  | none => .ok r.2
  | some ts =>
    let w2 := set_parsetree r.2 r.1
      (ts.map (update_moved_page_replace r.2 path oldpath))
    store_page w2 r.1

/-- Translation of `Notebook._update_links_in_moved_page`
(lines 569-583).  The source creates a `seen` set but never adds to it
in this pass, so the membership test never filters; the fold mirrors
that faithfully. -/
def update_links_in_moved_page (w : World) (oldtarget newtarget : ZPath) :
    Except (MErr × World) World :=
  (list_links_section w newtarget).foldlM (fun wa link =>
    if ¬ (link.target = newtarget ∨ link.target.ischild newtarget = true) then
      update_moved_page wa link.source
        (if link.source = newtarget then oldtarget
         else ⟨oldtarget.parts ++ link.source.parts.drop newtarget.parts.length⟩)
    else .ok wa) w

/-- Translation of the `replacefunc` of `_move_links_in_page`
(lines 650-680), including the floating-anchor edge case. -/
def move_links_in_page_replace (w : World) (pagePath oldtarget newtarget : ZPath)
    (elt : Elem) : Elem :=
  match elt with
  | .other t => .other t
  | .link href dtext =>
    if w.isPageLink href = false then .link href dtext
    else
      let h := HRef.new_from_wiki_link href
      let target := resolve_link (wex w) pagePath h
      if target = newtarget ∨ target.ischild newtarget = true then .link href dtext
      else if target = oldtarget then
        update_link_tag (.link href dtext) pagePath newtarget h
      else if target.ischild oldtarget = true then
        update_link_tag (.link href dtext) pagePath
          ⟨newtarget.parts ++ target.parts.drop oldtarget.parts.length⟩ h
      else if h.rel = HRefRel.floating ∧ h.parts.headD ("") = newtarget.basename ∧
          pagePath.ischild oldtarget.parent = true ∧
          ¬ target.ischild oldtarget.parent = true then
        if h.names = newtarget.basename then
          update_link_tag (.link href dtext) pagePath newtarget h
        else
          update_link_tag (.link href dtext) pagePath
            ⟨newtarget.parts ++ h.parts.tail⟩ h
      else .link href dtext

/-- Translation of `Notebook._move_links_in_page` (lines 643-684). -/
def move_links_in_page (w : World) (path oldtarget newtarget : ZPath) :
    Except (MErr × World) World :=
  let r := get_page w path
  match (lookupNat r.2.heap r.1).bind (fun pg => pg.tree) with
  | none => .ok r.2
  | some ts =>
    let w2 := set_parsetree r.2 r.1
      (ts.map (move_links_in_page_replace r.2 path oldtarget newtarget))
    store_page w2 r.1

/-- Translation of `Notebook._update_links_to_moved_page`
(lines 614-641): pass 1 rewrites sources with backlinks to a remaining
placeholder at the old name (skipped entirely when the index has no
entry for it); pass 2 re-anchors floating links with the moved basename
originating under the old parent that no longer resolve there. -/
def update_links_to_moved_page (w : World) (oldtarget newtarget : ZPath) :
    Except (MErr × World) World := do
  let s1 ←
    if pageExists w oldtarget = true then
      (list_links_section_backward w oldtarget).foldlM
        (fun (acc : World × List String) link =>
          if link.source.name ∉ acc.2 then do
            let w2 ← move_links_in_page acc.1 link.source oldtarget newtarget
            pure (w2, link.source.name :: acc.2)
          else pure acc) (w, ([] : List String))
    else pure (w, ([] : List String))
  let s2 ← (list_floating_links s1.1 oldtarget.basename).foldlM
    (fun (acc : World × List String) link =>
      if link.source.name ∉ acc.2 ∧ link.source.ischild oldtarget.parent = true ∧
          ¬ (link.target.ischild oldtarget.parent = true ∨ link.target = newtarget ∨
             link.target.ischild newtarget = true) then do
        let w2 ← move_links_in_page acc.1 link.source oldtarget newtarget
        pure (w2, link.source.name :: acc.2)
      else pure acc) s1
  pure s2.1

/-! ## move_page (notebook.py lines 519-567) -/

/-- Translation of `Notebook.move_page`.  The backlink counts of
lines 552 and 563-567 feed only the diagnostic log and are omitted.
Note: despite the docstring, the body never emits the `move-page` /
`moved-page` signals (claim C5). -/
def move_page (w : World) (path newpath : ZPath) (update_links : Bool) :
    Except (MErr × World) World :=
  if update_links = true ∧ w.probablyUptodate = false then
    .error (.IndexNotUptodate, w)
  else
    match storeMove w.store path newpath with
    | .error _ => .error (.PageExists, w)
    | .ok st =>
      let w1 : World :=
        { w with store := st, events := w.events ++ [Ev.storeMoved path newpath] }
      let w2 := if ¬ (newpath = path ∨ newpath.ischild path = true) then
          index_on_delete_page w1 path
        else w1
      let w3 := index_update w2 newpath
      let r := flush_page_cache w3 path
      if r.2 = false then .error (.AssertionFailed, r.1)
      else
        if update_links = false then .ok r.1
        else do
          let w4 ← update_links_in_moved_page r.1 path newpath
          update_links_to_moved_page w4 path newpath

/-! ## delete_page (notebook.py lines 731-840) -/

/-- Translation of the `replacefunc` of `_remove_links_in_page`
(lines 824-837): a page link resolving to the deleted path or below is
replaced by its plain display text. -/
def remove_links_replace (w : World) (pagePath delpath : ZPath) (elt : Elem) : Elem :=
  match elt with
  | .other t => .other t
  | .link href dtext =>
    if w.isPageLink href = false then .link href dtext
    else
      let hrefpath := resolve_link (wex w) pagePath (HRef.new_from_wiki_link href)
      if hrefpath = delpath ∨ hrefpath.ischild delpath = true then .other dtext
      else .link href dtext

/-- Translation of `Notebook._remove_links_in_page` (lines 818-840):
rewrites the page object's tree in place; the caller stores. -/
def remove_links_in_page (w : World) (id : Nat) (delpath : ZPath) : World :=
  match lookupNat w.heap id with
  | none => w
  | some pg =>
    match pg.tree with
    | none => w
    | some ts =>
      set_parsetree w id (ts.map (remove_links_replace w pg.path delpath))

/-- Order-preserving deduplication (the source collects backlink sources
into a Python set). -/
def dedupPaths (l : List ZPath) : List ZPath :=
  l.foldl (fun acc p => if p ∈ acc then acc else acc ++ [p]) []

/-- Translation of `Notebook._delete_page` (lines 780-816).  The Python
body returns with a bare `return` (value `None`) when `update_links` is
false, and again when no placeholder remains for the deleted name; only
the full path returns the `existed` boolean (claim C4).  The trash
variant differs only in the store call and is not separately modelled. -/
def delete_page_inner (w : World) (path : ZPath) (update_links : Bool) :
    Except (MErr × World) (World × Option Bool) := do
  let w1 := emit w (.sigDeletePage path)
  let sd := storeDelete w1.store path
  let w2 : World :=
    { w1 with store := sd.1, events := w1.events ++ [Ev.storeDeleted path] }
  let r := flush_page_cache w2 path
  if r.2 = false then throw (.AssertionFailed, r.1)
  else
    let w3 := index_on_delete_page r.1 path
    if update_links = false then pure (w3, none)
    else if pageExists w3 path = false then pure (w3, none)
    else do
      let w4 ← (dedupPaths ((list_links_section_backward w3 path).map
          (fun l => l.source))).foldlM (fun wa p => do
            let rp := get_page wa p
            store_page (remove_links_in_page rp.2 rp.1 path) rp.1) w3
      pure (emit w4 (.sigDeletedPage path), some sd.2)

/-- Translation of `Notebook.delete_page` (lines 731-748). -/
def delete_page (w : World) (path : ZPath) (update_links : Bool) :
    Except (MErr × World) (World × Option Bool) :=
  delete_page_inner w path update_links


/-! ## C3: stale-index precondition of move_page -/

/-- C3: when link updating is requested and the index does not report
itself up to date, `move_page` fails with `IndexNotUptodateError`; the
error carries the input world unchanged — the check precedes every store
mutation, index call and cache flush. -/
theorem move_page_index_stale (w : World) (path newpath : ZPath)
    (h : w.probablyUptodate = false) :
    move_page w path newpath true = .error (.IndexNotUptodate, w) := by
  simp [move_page, h]

/-- A notebook whose index is stale. -/
def demoStaleWorld : World := { demoWorld with probablyUptodate := false }

/-- C3 witness. -/
theorem move_page_index_stale_witness :
    demoStaleWorld.probablyUptodate = false ∧
    move_page demoStaleWorld ⟨["a"]⟩ ⟨["b"]⟩ true =
      .error (.IndexNotUptodate, demoStaleWorld) :=
  ⟨rfl, move_page_index_stale demoStaleWorld ⟨["a"]⟩ ⟨["b"]⟩ rfl⟩

/-! ## C5: move_page emits no move-page / moved-page notifications -/

/-- C5 (code bug): on a notebook containing page `a` with an empty event
trace, moving `a` to `b` — with either value of `update_links` —
produces exactly the trace [storeMoved, idxOnDelete, idxUpdate]: the
`move-page` signal is not emitted before the store mutation and the
`moved-page` signal is not emitted afterwards, contradicting the
docstring (lines 544-545) and the spec's notification protocol. -/
theorem move_page_no_signals_cex :
    (∃ w1, move_page demoWorld ⟨["a"]⟩ ⟨["b"]⟩ false = .ok w1 ∧
      w1.events = [Ev.storeMoved ⟨["a"]⟩ ⟨["b"]⟩, Ev.idxOnDelete ⟨["a"]⟩,
        Ev.idxUpdate ⟨["b"]⟩]) ∧
    (∃ w2, move_page demoWorld ⟨["a"]⟩ ⟨["b"]⟩ true = .ok w2 ∧
      w2.events = [Ev.storeMoved ⟨["a"]⟩ ⟨["b"]⟩, Ev.idxOnDelete ⟨["a"]⟩,
        Ev.idxUpdate ⟨["b"]⟩]) :=
  ⟨⟨_, rfl, rfl⟩, ⟨_, rfl, rfl⟩⟩

/-! ## C4: return value of delete_page -/

/-- C4 (code bug): page `a` exists in the store (the store reports
`existed = true`), yet `delete_page` with `update_links = false` falls
off the Python function with a bare `return`, producing `None` rather
than the documented `True`. -/
theorem delete_page_none_cex :
    (storeDelete demoWorld.store ⟨["a"]⟩).2 = true ∧
    ∃ w', delete_page demoWorld ⟨["a"]⟩ false = .ok (w', none) :=
  ⟨rfl, ⟨_, rfl⟩⟩


/-! ## C8: move_page without link update touches nothing else -/

theorem flushList_heap_trees (ns : List String) (w : World) :
    ∀ i, (lookupNat (flushList w ns).1.heap i).map (fun pg => pg.tree)
      = (lookupNat w.heap i).map (fun pg => pg.tree) := by
  induction ns generalizing w with
  | nil => intro i; rfl
  | cons n rest ih =>
    intro i
    have hstep : ∀ j, (lookupNat (flushOne w n).1.heap j).map (fun pg => pg.tree)
        = (lookupNat w.heap j).map (fun pg => pg.tree) := by
      intro j
      rcases flushOne_shape w n with he | ⟨id, pg, h1, h2, hm, he⟩
      · rw [he]
      · rw [he]
        show (lookupNat (setNat w.heap id { pg with valid := false }) j).map _ = _
        rw [lookupNat_setNat]
        by_cases hj : j = id
        · rw [if_pos hj, hj, h2]
          rfl
        · rw [if_neg hj]
    by_cases hb : (flushOne w n).2 = true
    · simp only [flushList, hb, if_true]
      rw [ih]
      exact hstep i
    · have hb2 : (flushOne w n).2 = false := by simpa using hb
      simp only [flushList, hb2, Bool.false_eq_true, if_false]
      exact hstep i

theorem move_page_flush_core (W3 : World) (p : ZPath) (w' : World)
    (hW : (flush_page_cache W3 p).1 = w') :
    w'.store = W3.store ∧ w'.events = W3.events ∧ w'.nextId = W3.nextId ∧
    (∀ i, (lookupNat w'.heap i).map (fun pg => pg.tree)
        = (lookupNat W3.heap i).map (fun pg => pg.tree)) := by
  subst hW
  exact ⟨(flushList_frame _ _).1, (flushList_frame _ _).2.2.2.2.2.1,
    (flushList_frame _ _).2.2.2.2.1, flushList_heap_trees _ _⟩

/-- C8: `move_page` with `update_links = false` performs only the store
move, the conditional index removal, the index update of the new path
and the cache flush: the event trace extends exactly by those
collaborator calls (in particular no `store-page` signal and no store
write besides the move), the fresh-id counter is untouched (no page is
constructed for repair), and the parse tree of every live page object is
unchanged (no link text rewritten). -/
theorem move_page_skip_links_frame (w : World) (p np : ZPath) (w' : World)
    (h : move_page w p np false = .ok w') :
    (∃ st, storeMove w.store p np = Except.ok st ∧ w'.store = st) ∧
    w'.events = (w.events ++ [Ev.storeMoved p np] ++
      (if ¬ (np = p ∨ np.ischild p = true) then [Ev.idxOnDelete p] else []) ++
      [Ev.idxUpdate np]) ∧
    w'.nextId = w.nextId ∧
    (∀ i, (lookupNat w'.heap i).map (fun pg => pg.tree)
        = (lookupNat w.heap i).map (fun pg => pg.tree)) := by
  unfold move_page at h
  split at h
  · simp at h
  · split at h
    · simp at h
    · rename_i st heq
      split at h
      · rename_i hcond
        split at h
        · dsimp only at h
          split at h
          · simp at h
          · injection h with hW
            obtain ⟨c1, c2, c3, c4⟩ := move_page_flush_core _ p w' hW
            refine ⟨⟨st, heq, ?_⟩, ?_, ?_, ?_⟩
            · rw [c1]
              rfl
            · rw [c2, if_pos hcond]
              rfl
            · rw [c3]
              rfl
            · intro i
              rw [c4 i]
              rfl
        · rename_i hff
          exact absurd rfl hff
      · rename_i hcond
        split at h
        · dsimp only at h
          split at h
          · simp at h
          · injection h with hW
            obtain ⟨c1, c2, c3, c4⟩ := move_page_flush_core _ p w' hW
            refine ⟨⟨st, heq, ?_⟩, ?_, ?_, ?_⟩
            · rw [c1]
              rfl
            · rw [c2, if_neg hcond]
              show (w.events ++ [Ev.storeMoved p np]) ++ [Ev.idxUpdate np]
                = (w.events ++ [Ev.storeMoved p np] ++ []) ++ [Ev.idxUpdate np]
              simp
            · rw [c3]
              rfl
            · intro i
              rw [c4 i]
              rfl
        · rename_i hff
          exact absurd rfl hff

/-- C8 witness: moving `a` to `b` on the demonstration notebook without
link update. -/
theorem move_page_skip_links_frame_witness :
    ∃ w', move_page demoWorld ⟨["a"]⟩ ⟨["b"]⟩ false = .ok w' ∧
      ((∃ st, storeMove demoWorld.store ⟨["a"]⟩ ⟨["b"]⟩ = Except.ok st ∧
          w'.store = st) ∧
       w'.events = (demoWorld.events ++ [Ev.storeMoved ⟨["a"]⟩ ⟨["b"]⟩] ++
         (if ¬ ((⟨["b"]⟩ : ZPath) = ⟨["a"]⟩ ∨
             ZPath.ischild ⟨["b"]⟩ ⟨["a"]⟩ = true) then [Ev.idxOnDelete ⟨["a"]⟩]
          else []) ++ [Ev.idxUpdate ⟨["b"]⟩]) ∧
       w'.nextId = demoWorld.nextId ∧
       (∀ i, (lookupNat w'.heap i).map (fun pg => pg.tree)
           = (lookupNat demoWorld.heap i).map (fun pg => pg.tree))) :=
  ⟨_, rfl, move_page_skip_links_frame demoWorld ⟨["a"]⟩ ⟨["b"]⟩ _ rfl⟩


/-! ## C10: the outgoing repair pass rewrites only floating page links -/

theorem storeLookup_storeSet (st : List (ZPath × List Elem)) (p : ZPath)
    (t : List Elem) : storeLookup (storeSet st p t) p = some t := by
  simp [storeSet, storeLookup]

theorem store_page_ok_store {w : World} {id : Nat} {pg : PageH} {w' : World}
    (hl : lookupNat w.heap id = some pg) (hv : pg.valid = true)
    (h : store_page w id = .ok w') :
    w'.store = storeWritePage w.store pg.path pg.tree := by
  simp only [store_page, hl, hv, Bool.true_eq_false, if_false] at h
  injection h with hW
  rw [← hW]
  rfl

/-- A tree element the outgoing repair pass must leave unchanged: a
non-link element, a non-page link, or a page link whose parsed relation
kind is not floating. -/
def NonFloatingElem (w : World) (elt : Elem) : Prop :=
  match elt with
  | .other _ => True
  | .link href _ =>
      w.isPageLink href = false ∨
        (HRef.new_from_wiki_link href).rel ≠ HRefRel.floating


theorem store_page_invalid {w : World} {id : Nat} {pg : PageH}
    (hl : lookupNat w.heap id = some pg) (hv : pg.valid = false) :
    store_page w id = .error (.AssertionFailed, w) := by
  simp [store_page, hl, hv]

/-- C10: the outgoing link-repair pass `_update_moved_page` stores for
the moved page exactly the element-wise rewriting of its parse tree, and
that rewriting is the identity on every non-link element, every non-page
link, and every page link whose parsed reference kind is absolute or
explicitly relative — only floating page links are ever rewritten. -/
theorem update_moved_page_floating_only (w : World) (path oldpath : ZPath)
    (w' : World) (pg : PageH) (ts : List Elem)
    (hpg : lookupNat (get_page w path).2.heap (get_page w path).1 = some pg)
    (hpath : pg.path = path) (htree : pg.tree = some ts)
    (h : update_moved_page w path oldpath = .ok w') :
    storeLookup w'.store path
      = some (ts.map (update_moved_page_replace (get_page w path).2 path oldpath)) ∧
    (∀ elt ∈ ts, NonFloatingElem (get_page w path).2 elt →
      update_moved_page_replace (get_page w path).2 path oldpath elt = elt) := by
  have hscrut : (lookupNat (get_page w path).2.heap (get_page w path).1).bind
      (fun pg => pg.tree) = some ts := by
    rw [hpg]
    exact htree
  constructor
  · unfold update_moved_page at h
    dsimp only at h
    split at h
    · rename_i heq0
      rw [hscrut] at heq0
      cases heq0
    · rename_i ts0 heq0
      rw [hscrut] at heq0
      injection heq0 with hts0
      subst hts0
      have hsp_heap : lookupNat (set_parsetree (get_page w path).2 (get_page w path).1
          (ts.map (update_moved_page_replace (get_page w path).2 path oldpath))).heap
          (get_page w path).1
          = some { pg with tree := some (ts.map (update_moved_page_replace
              (get_page w path).2 path oldpath)), modified := true } := by
        simp only [set_parsetree, hpg]
        show lookupNat (setNat (get_page w path).2.heap (get_page w path).1 _)
          (get_page w path).1 = _
        rw [lookupNat_setNat, if_pos rfl, hpg]
        rfl
      cases hv : pg.valid with
      | false =>
        rw [store_page_invalid hsp_heap (by simpa using hv)] at h
        cases h
      | true =>
        have hst := store_page_ok_store hsp_heap (by simpa using hv) h
        rw [hst]
        show storeLookup (storeWritePage (set_parsetree (get_page w path).2
            (get_page w path).1 (ts.map (update_moved_page_replace
              (get_page w path).2 path oldpath))).store pg.path
            (some (ts.map (update_moved_page_replace
              (get_page w path).2 path oldpath)))) path
          = some (ts.map (update_moved_page_replace (get_page w path).2 path oldpath))
        rw [hpath]
        exact storeLookup_storeSet _ _ _
  · intro elt hmem hnf
    cases elt with
    | other t => rfl
    | link href dtext =>
      rcases hnf with hnp | hrel
      · simp [update_moved_page_replace, hnp]
      · by_cases hip : (get_page w path).2.isPageLink href = false
        · simp [update_moved_page_replace, hip]
        · simp [update_moved_page_replace, hip, hrel]


/-- Demonstration notebook for the outgoing repair pass: page `p` holds
an absolute link, an explicit child link, a non-page link and plain
text. -/
def demoRepairWorld : World :=
  { store := [(⟨["p"]⟩, [Elem.link (":x") ("t1"), Elem.link ("+c") ("t2"),
      Elem.link ("http") ("t3"), Elem.other ("body")])],
    indexPages := [], indexLinks := [], probablyUptodate := true,
    heap := [], cache := [], nextId := 0, events := [],
    isPageLink := fun s => decide (¬ s = ("http")) }

/-- C10 witness: on `demoRepairWorld`, the pass succeeds, stores exactly
the mapped tree, and the map is the identity on all four (non-floating)
elements. -/
theorem update_moved_page_floating_only_witness :
    ∃ w', update_moved_page demoRepairWorld ⟨["p"]⟩ ⟨["q"]⟩ = Except.ok w' ∧
      (storeLookup w'.store ⟨["p"]⟩
          = some (([Elem.link (":x") ("t1"), Elem.link ("+c") ("t2"),
              Elem.link ("http") ("t3"), Elem.other ("body")]).map
            (update_moved_page_replace (get_page demoRepairWorld ⟨["p"]⟩).2
              ⟨["p"]⟩ ⟨["q"]⟩)) ∧
        (∀ elt ∈ ([Elem.link (":x") ("t1"), Elem.link ("+c") ("t2"),
            Elem.link ("http") ("t3"), Elem.other ("body")] : List Elem),
          NonFloatingElem (get_page demoRepairWorld ⟨["p"]⟩).2 elt →
            update_moved_page_replace (get_page demoRepairWorld ⟨["p"]⟩).2
              ⟨["p"]⟩ ⟨["q"]⟩ elt = elt)) :=
  ⟨_, rfl, update_moved_page_floating_only demoRepairWorld ⟨["p"]⟩ ⟨["q"]⟩ _
    (newPageObj demoRepairWorld ⟨["p"]⟩) _ rfl rfl rfl rfl⟩


/-! ## resolve_file (notebook.py lines 842-890) -/

/-- The backslash normalization performed first by `resolve_file`
(`filename.replace('\\', '/')`), on character data. -/
def normSlashes (s : String) : String :=
  ⟨s.data.map (fun c => if c = '\\' then '/' else c)⟩

/-- Modelled from the spec: the purely textual path join of the `zim.fs`
`Dir.file` / `File((dir, filename))` constructors (no normalization of
duplicate separators is modelled). -/
def joinPath (d f : String) : String := d ++ ("/") ++ f

/-- Modelled from the spec: `is_win32_path_re` of `zim.parsing`: a
drive-letter path `X:/...` (backslashes are already normalized when the
test runs). -/
def is_win32_path (s : String) : Bool :=
  match s.data with
  | c :: ':' :: '/' :: _ => c.isAlpha
  | _ => false

/-- The notebook configuration consulted by `resolve_file`: the
configured document root, the notebook folder, and the per-page
attachment folder (`get_attachments_dir`). -/
structure FileEnv where
  document_root : Option String
  dir : Option String
  attachments_dir : ZPath → String

/-- Translation of `Notebook.resolve_file`: normalize backslashes, then
classify by prefix — home / file-URI text is absolute as-is; a leading
separator resolves against the document root (filesystem root when none
is configured); a drive-letter path is made absolute; anything else is
attachment-relative, falling back to the notebook folder without a page,
and failing (`none`, the assertion) when the notebook has no folder.
The function is purely textual: no filesystem existence is consulted
(there is none in the model). -/
def resolve_file (env : FileEnv) (filename0 : String) (path : Option ZPath) :
    Option String :=
  let filename := normSlashes filename0
  if strStartsWith filename ("~") || strStartsWith filename ("file:/") then
    some filename
  else if strStartsWith filename ("/") then
    some (joinPath (env.document_root.getD ("/")) filename)
  else if is_win32_path filename then
    some (if strStartsWith filename ("/") then filename else ("/") ++ filename)
  else
    match path with
    | some p => some (joinPath (env.attachments_dir p) filename)
    | none =>
      match env.dir with
      | some d => some (joinPath d filename)
      | none => none

/-- The classification stated by the claim, written independently from
its words, on the *normalized* text (the amended reading: the prefix
classes are those of the text after backslashes become forward
slashes). -/
def resolveFileSpecified (env : FileEnv) (filename0 : String)
    (path : Option ZPath) : Option String :=
  let t := normSlashes filename0
  if strStartsWith t ("~") || strStartsWith t ("file:/") then some t
  else if strStartsWith t ("/") then
    some (joinPath (env.document_root.getD ("/")) t)
  else if is_win32_path t then some (("/") ++ t)
  else
    match path with
    | some p => some (joinPath (env.attachments_dir p) t)
    | none =>
      match env.dir with
      | some d => some (joinPath d t)
      | none => none

/-- Concrete file-resolution environment for the counterexample. -/
def demoFileEnv : FileEnv :=
  { document_root := some ("DOC"), dir := some ("NB"),
    attachments_dir := fun _ => ("ATT") }

/-- C9 counterexample: the input `\x` matches none of the claim's prefix
classes as written (it does not start with `~`, `file:/` or `/`, and is
not a drive-letter path), so the claim files it under "all other text"
(attachment-relative); the code, however, first rewrites `\` to `/` and
resolves it against the document root. -/
theorem resolve_file_backslash_cex :
    strStartsWith ("\\x") ("~") = false ∧
    strStartsWith ("\\x") ("file:/") = false ∧
    strStartsWith ("\\x") ("/") = false ∧
    is_win32_path ("\\x") = false ∧
    resolve_file demoFileEnv ("\\x") (some ⟨["p"]⟩) = some ("DOC//x") ∧
    some ("DOC//x") ≠
      some (joinPath (demoFileEnv.attachments_dir ⟨["p"]⟩) ("\\x")) := by
  decide

/-- C9 (amended): `resolve_file` implements exactly the claim's prefix
classification applied to the backslash-normalized text — in particular
it never consults any filesystem state (both sides are pure functions of
the text and the notebook configuration). -/
theorem resolve_file_classifies (env : FileEnv) (filename : String)
    (path : Option ZPath) :
    resolve_file env filename path = resolveFileSpecified env filename path := by
  unfold resolve_file resolveFileSpecified
  by_cases h1 : (strStartsWith (normSlashes filename) ("~") ||
      strStartsWith (normSlashes filename) ("file:/")) = true
  · simp [h1]
  · have h1f : (strStartsWith (normSlashes filename) ("~") ||
        strStartsWith (normSlashes filename) ("file:/")) = false := by
      simpa using h1
    by_cases h2 : strStartsWith (normSlashes filename) ("/") = true
    · simp [h1f, h2]
    · have h2f : strStartsWith (normSlashes filename) ("/") = false := by
        simpa using h2
      simp [h1f, h2f]

end ZimNotebook
